import Mathlib

/-!
# yab: request deep copy, request assembly and the peer provider registry

A shallow embedding of `transport/request.go`, `request.go` and
`peerprovider/interface.go`.

Go maps and byte slices are reference-like, so the embedding threads an
explicit heap: a map value is a reference (nil or an address) to a map object,
a byte slice is a slice header (array reference, offset, length, capacity)
over a backing array.  Request structs are passed by value: every function of
the source that writes a request field writes the struct it has just allocated
itself (`&Request{...}` in `DeepCopy`), so no write to a struct field is ever
visible through another pointer.
-/

set_option maxRecDepth 8000

namespace Go

/-- An address of a heap object. -/
abbrev Addr := Nat

/-- The contents of a Go `map[string]string`: finitely many bindings, keys unique. -/
abbrev MapObj := AList (fun _ : String => String)

/-- A Go value of type `map[string]string`: `none` is the nil map. -/
abbrev MapRef := Option Addr

/-- A Go value of type `[]byte`: the slice header. `arr = none` is the nil slice. -/
structure Slice where
  arr : Option Addr
  off : Nat
  len : Nat
  cap : Nat
deriving DecidableEq, Repr

/-- The nil slice. -/
def Slice.nil : Slice := ⟨none, 0, 0, 0⟩

/-- The heap: map objects and backing arrays of byte slices, addressed by index. -/
structure Heap where
  maps : List MapObj
  bufs : List (List UInt8)
deriving DecidableEq

namespace Heap

/-- The map object a map value denotes; the nil map reads as the empty map. -/
def mapOf (h : Heap) (m : MapRef) : MapObj :=
  match m with
  | none => ∅
  | some a => (h.maps[a]?).getD ∅

/-- Go `v, ok := m[k]`. -/
def mapLookup (h : Heap) (m : MapRef) (k : String) : Option String :=
  (h.mapOf m).lookup k

/-- Go `len(m)`. -/
def mapLen (h : Heap) (m : MapRef) : Nat :=
  (h.mapOf m).entries.length

/-- The bindings `for k, v := range m` visits (in one of the orders Go may choose). -/
def mapEntries (h : Heap) (m : MapRef) : List (String × String) :=
  (h.mapOf m).entries.map (fun e => (e.1, e.2))

/-- Go `make(map[string]string, n)`: a fresh, empty, non-nil map. -/
def makeMap (h : Heap) : Heap × Addr :=
  ({ h with maps := h.maps ++ [∅] }, h.maps.length)

/-- Go `m[k] = v` on the non-nil map at address `a`. -/
def mapStore (h : Heap) (a : Addr) (k v : String) : Heap :=
  match h.maps[a]? with
  | some m => { h with maps := h.maps.set a (m.insert k v) }
  | none => h

/-- Go `delete(m, k)` on the non-nil map at address `a`. -/
def mapErase (h : Heap) (a : Addr) (k : String) : Heap :=
  match h.maps[a]? with
  | some m => { h with maps := h.maps.set a (m.erase k) }
  | none => h

/-- Go `m[k] = v` on a map value: assignment to an entry of a nil map panics (`none`). -/
def mapAssign (h : Heap) (m : MapRef) (k v : String) : Option Heap :=
  match m with
  | none => none
  | some a => some (h.mapStore a k v)

/-- Go `delete(m, k)` on a map value: a no-op on the nil map. -/
def mapDelete (h : Heap) (m : MapRef) (k : String) : Heap :=
  match m with
  | none => h
  | some a => h.mapErase a k

/-- The bytes a slice denotes: `s[0], ..., s[len(s)-1]`. -/
def sliceBytes (h : Heap) (s : Slice) : List UInt8 :=
  match s.arr with
  | none => []
  | some a => (((h.bufs[a]?).getD []).drop s.off).take s.len

/-- Go `s[i] = x`: panics (`none`) when `i` is out of range. -/
def sliceStore (h : Heap) (s : Slice) (i : Nat) (x : UInt8) : Option Heap :=
  if i < s.len then
    match s.arr with
    | none => none
    | some a =>
      match h.bufs[a]? with
      | some b => some { h with bufs := h.bufs.set a (b.set (s.off + i) x) }
      | none => none
  else none

/-- Go `make([]byte, n)`: a fresh zeroed array of `n` bytes and a slice over all of it. -/
def makeBytes (h : Heap) (n : Nat) : Heap × Slice :=
  ({ h with bufs := h.bufs ++ [List.replicate n 0] }, ⟨some h.bufs.length, 0, n, n⟩)

/-- Go `copy(dst, src)`: copies `min(len(dst), len(src))` bytes. -/
def copy (h : Heap) (dst src : Slice) : Heap :=
  let n := min dst.len src.len
  let bytes := (h.sliceBytes src).take n
  match dst.arr with
  | none => h
  | some a =>
    match h.bufs[a]? with
    | some b =>
      { h with bufs := h.bufs.set a (b.take dst.off ++ bytes ++ b.drop (dst.off + bytes.length)) }
    | none => h

/-- A map value is valid in a heap: nil, or the address of an allocated map object. -/
def ValidMap (h : Heap) (m : MapRef) : Prop :=
  match m with
  | none => True
  | some a => a < h.maps.length

instance (h : Heap) (m : MapRef) : Decidable (h.ValidMap m) := by
  unfold ValidMap
  cases m <;> infer_instance

/-- A slice is valid in a heap: nil and empty, or a window of an allocated array. -/
def ValidSlice (h : Heap) (s : Slice) : Prop :=
  match s.arr with
  | none => s.len = 0
  | some a => s.off + s.len ≤ ((h.bufs[a]?).getD []).length ∧ a < h.bufs.length

instance (h : Heap) (s : Slice) : Decidable (h.ValidSlice s) := by
  unfold ValidSlice
  cases s.arr <;> infer_instance

end Heap

end Go

namespace transport

open Go

/-- The struct `transport.Request`, with the fields `DeepCopy` and
`newTestRequest` name: strings, a `time.Duration` (nanoseconds), three
`map[string]string` and a `[]byte`. -/
structure Request where
  Method : String
  Timeout : Int
  Headers : MapRef
  Baggage : MapRef
  TransportHeaders : MapRef
  ShardKey : String
  Body : Slice
  TargetService : String
deriving DecidableEq

/-- Every reference held by the request points into the heap. -/
def Request.Valid (h : Heap) (r : Request) : Prop :=
  h.ValidMap r.Headers ∧ h.ValidMap r.Baggage ∧ h.ValidMap r.TransportHeaders ∧
    h.ValidSlice r.Body

/-- Source: `deepCopyMap`. -/
def deepCopyMap (h : Heap) (src : MapRef) : Heap × MapRef :=
  let (h1, dest) := h.makeMap
  let h2 := (h1.mapEntries src).foldl (fun hh kv => hh.mapStore dest kv.1 kv.2) h1
  (h2, some dest)

/-- Source: `deepCopyBytes`. -/
def deepCopyBytes (h : Heap) (src : Slice) : Heap × Slice :=
  let (h1, dest) := h.makeBytes src.len
  let h2 := h1.copy dest src
  (h2, dest)

/-- Source: `(*Request).DeepCopy`. The body field is assigned `r.Body`, the
slice header itself. -/
def Request.DeepCopy (h : Heap) (r : Request) : Heap × Request :=
  let (h1, headers) := deepCopyMap h r.Headers
  let (h2, baggage) := deepCopyMap h1 r.Baggage
  let (h3, transportHeaders) := deepCopyMap h2 r.TransportHeaders
  (h3,
    { Method := r.Method
      Timeout := r.Timeout
      Headers := headers
      Baggage := baggage
      TransportHeaders := transportHeaders
      ShardKey := r.ShardKey
      Body := r.Body
      TargetService := r.TargetService })

instance (h : Heap) (r : Request) : Decidable (r.Valid h) := by
  unfold Request.Valid
  infer_instance

/-- The three map-valued fields of a request. -/
inductive MapField where
  | Headers
  | Baggage
  | TransportHeaders
deriving DecidableEq, Repr

/-- The map value held in a map-valued field. -/
def Request.mapField (r : Request) : MapField → MapRef
  | .Headers => r.Headers
  | .Baggage => r.Baggage
  | .TransportHeaders => r.TransportHeaders

/-- A mutation of a map: `m[k] = v` (insert or overwrite) or `delete(m, k)`. -/
inductive MapWrite where
  | assign (k v : String)
  | delete (k : String)
deriving DecidableEq, Repr

/-- Runs a mutation on a map value in the heap; `none` is a panic. -/
def MapWrite.run (h : Heap) (m : MapRef) : MapWrite → Option Heap
  | .assign k v => h.mapAssign m k v
  | .delete k => some (h.mapDelete m k)

/-- The effect of a mutation on the contents of the map it is run on. -/
def MapWrite.on (m : MapObj) : MapWrite → MapObj
  | .assign k v => m.insert k v
  | .delete k => m.erase k

/-- The bindings of a map inserted one by one into an empty map, as the loop of
`deepCopyMap` does. -/
def copyObj (m : MapObj) : MapObj :=
  m.entries.foldl (fun acc e => acc.insert e.1 e.2) ∅

end transport

namespace Go

namespace Heap

/-- Go `reflect.DeepEqual` on two map values: both nil or both non-nil, the same
length, and the same map object or every key of the first bound to the same
value in the second. -/
def deepEqualMap (h : Heap) (a b : MapRef) : Bool :=
  match a, b with
  | none, none => true
  | some x, some y =>
    h.mapLen a == h.mapLen b &&
      (x == y || (h.mapEntries a).all (fun kv => h.mapLookup b kv.1 == some kv.2))
  | _, _ => false

/-- Go `reflect.DeepEqual` on two byte slices: both nil or both non-nil, the same
length, and the same first element or the same bytes. -/
def deepEqualBytes (h : Heap) (s t : Slice) : Bool :=
  match s.arr, t.arr with
  | none, none => s.len == t.len
  | some x, some y =>
    s.len == t.len && ((x == y && s.off == t.off) || h.sliceBytes s == h.sliceBytes t)
  | _, _ => false

end Heap

end Go

namespace transport

open Go

/-- The equality `assert.Equal(t, *r, *req)` tests: `reflect.DeepEqual` on the
two structs, field by field. -/
def Request.deepEqual (h : Heap) (a b : Request) : Bool :=
  a.Method == b.Method && a.Timeout == b.Timeout &&
    h.deepEqualMap a.Headers b.Headers && h.deepEqualMap a.Baggage b.Baggage &&
    h.deepEqualMap a.TransportHeaders b.TransportHeaders &&
    a.ShardKey == b.ShardKey && h.deepEqualBytes a.Body b.Body &&
    a.TargetService == b.TargetService

/-- The heap of `newTestRequest()` in `request_test.go`: its three maps and the
array of `[]byte("hello world")`. -/
def testHeap : Heap :=
  { maps := [(∅ : MapObj).insert "beep" "boop", (∅ : MapObj).insert "beep" "bleep",
      (∅ : MapObj).insert "beep" "meep"]
    bufs := [[104, 101, 108, 108, 111, 32, 119, 111, 114, 108, 100]] }

/-- The request `newTestRequest()` of `request_test.go` builds. -/
def testRequest : Request :=
  { Method := "GET"
    Timeout := 1000000000
    Headers := some 0
    Baggage := some 1
    TransportHeaders := some 2
    ShardKey := "key"
    Body := ⟨some 0, 0, 11, 11⟩
    TargetService := "bob" }

/-- The request `&Request{Method: "GET"}`: nil maps, nil body. -/
def bareRequest : Request :=
  { Method := "GET"
    Timeout := 0
    Headers := none
    Baggage := none
    TransportHeaders := none
    ShardKey := ""
    Body := Slice.nil
    TargetService := "" }

end transport


namespace Go

/-- A Go `error` value: `none` is nil, otherwise the error, identified with the
text `Error()` returns. -/
abbrev GoError := Option String

/-- The table `"0123456789abcdef"` of `strconv`. -/
def lowerhex (n : Nat) : Char :=
  "0123456789abcdef".data.getD (n % 16) '0'

/-- The hexadecimal digits of `n`, `width` of them, most significant first. -/
def hexDigits (width n : Nat) : List Char :=
  (List.range width).reverse.map (fun i => lowerhex (n / 16 ^ i))

/-- Go `strconv.appendEscapedRune` for the double quote, neither ASCII-only nor
graphic-only, on a valid rune. `isPrint` is the table lookup `strconv.IsPrint`. -/
def appendEscapedRune (isPrint : Char → Bool) (r : Char) : List Char :=
  if r = '"' ∨ r = '\\' then ['\\', r]
  else if isPrint r then [r]
  else if r.toNat = 7 then ['\\', 'a']
  else if r.toNat = 8 then ['\\', 'b']
  else if r.toNat = 12 then ['\\', 'f']
  else if r.toNat = 10 then ['\\', 'n']
  else if r.toNat = 13 then ['\\', 'r']
  else if r.toNat = 9 then ['\\', 't']
  else if r.toNat = 11 then ['\\', 'v']
  else if r.toNat < 32 ∨ r.toNat = 127 then '\\' :: 'x' :: hexDigits 2 r.toNat
  else if r.toNat < 65536 then '\\' :: 'u' :: hexDigits 4 r.toNat
  else '\\' :: 'U' :: hexDigits 8 r.toNat

/-- Go `strconv.Quote`, which renders the verb `%q` of a string: the text in
double quotes, each rune escaped as needed. -/
def Quote (isPrint : Char → Bool) (s : String) : String :=
  ⟨'"' :: (s.data.flatMap (appendEscapedRune isPrint)) ++ ['"']⟩

/-- The rule of `strconv.IsPrint` on ASCII: the runes from space to tilde. -/
def isPrintASCII (r : Char) : Bool :=
  32 ≤ r.toNat && r.toNat ≤ 126

/-- The text `s` occurs in the text `msg`. -/
def Contains (msg s : String) : Prop :=
  List.IsInfix s.data msg.data

instance (msg s : String) : Decidable (Contains msg s) := by
  unfold Contains
  infer_instance

end Go

namespace peerprovider

open Go

/-- A `context.Context`; the registry only hands it to the provider. -/
structure Context where
  deadline : Option Nat
deriving DecidableEq, Repr

/-- A `*url.URL`, as far as `Resolve` reads it: the field `Scheme` and the text
`u.String()` renders. -/
structure URL where
  Scheme : String
  Text : String
deriving DecidableEq, Repr

/-- A Go `[]string`: `none` is the nil slice. -/
abbrev PeerList := Option (List String)

/-- The interface `PeerProvider`: its method `Resolve`, which may act on the
world outside the registry (files, network), here of type `W`. -/
structure PeerProvider (W : Type) where
  Resolve : Context → URL → W → (PeerList × GoError) × W

/-- What the code of the registry does, in order: operations on the lock and
calls of a provider. -/
inductive Event (W : Type) where
  | RLock
  | RUnlock
  | Lock
  | Unlock
  | Call (pp : PeerProvider W) (ctx : Context) (u : URL)

/-- The package state: the variable `registry`, the world the providers act on,
and the record of lock operations and provider calls made so far. -/
structure State (W : Type) where
  registry : AList (fun _ : String => PeerProvider W)
  world : W
  trace : List (Event W)

/-- Appends an event to the record. -/
def State.log {W : Type} (st : State W) (e : Event W) : State W :=
  { st with trace := st.trace ++ [e] }

/-- The package state before `init`: `registry = make(map[string]PeerProvider)`. -/
def State.empty {W : Type} (w : W) : State W :=
  { registry := ∅, world := w, trace := [] }

/-- Source: `RegisterPeerProvider`. -/
def RegisterPeerProvider {W : Type} (st : State W) (scheme : String) (pp : PeerProvider W) :
    State W :=
  let st1 := st.log .Lock
  let st2 := { st1 with registry := st1.registry.insert scheme pp }
  st2.log .Unlock

/-- Source: `init`. The providers `filePeerProvider{}` and `httpPeerProvider{}`
are declared outside `interface.go` and are parameters here. -/
def init {W : Type} (filePeerProvider httpPeerProvider : PeerProvider W) (st : State W) :
    State W :=
  let st1 := RegisterPeerProvider st "" filePeerProvider
  let st2 := RegisterPeerProvider st1 "file" filePeerProvider
  let st3 := RegisterPeerProvider st2 "http" httpPeerProvider
  RegisterPeerProvider st3 "https" httpPeerProvider

/-- Source: `Schemes`. The loop visits the keys of the registry in one of the
orders Go may choose. -/
def Schemes {W : Type} (st : State W) : List String × State W :=
  let st1 := st.log .RLock
  let schemes := st1.registry.keys.foldl
    (fun schemes scheme => if scheme ≠ "" then schemes ++ [scheme] else schemes) []
  let st2 := st1.log .RUnlock
  (schemes, st2)

/-- The text of `fmt.Errorf("no peer provider available for scheme %q in URL %q",
u.Scheme, u.String())`. -/
def noProviderMessage (isPrint : Char → Bool) (u : URL) : String :=
  "no peer provider available for scheme " ++ Quote isPrint u.Scheme ++ " in URL " ++
    Quote isPrint u.Text

/-- Source: `Resolve`. `isPrint` is the table `strconv.IsPrint` the verb `%q`
consults. -/
def Resolve {W : Type} (isPrint : Char → Bool) (st : State W) (ctx : Context) (u : URL) :
    (PeerList × GoError) × State W :=
  let st1 := st.log .RLock
  match st1.registry.lookup u.Scheme with
  | some pp =>
    let st2 := st1.log .RUnlock
    let st3 := st2.log (.Call pp ctx u)
    let (res, w) := pp.Resolve ctx u st3.world
    (res, { st3 with world := w })
  | none =>
    let st2 := st1.log .RUnlock
    ((none, some (noProviderMessage isPrint u)), st2)

/-- The package state after a sequence of calls of `RegisterPeerProvider`. -/
def registerAll {W : Type} (st : State W) (calls : List (String × PeerProvider W)) : State W :=
  calls.foldl (fun s c => RegisterPeerProvider s c.1 c.2) st

/-- A provider that answers with one fixed peer. -/
def fixedProvider (peer : String) : PeerProvider Unit :=
  { Resolve := fun _ _ w => ((some [peer], none), w) }

/-- A URL with an unregistered scheme and a double quote in its query, as
`url.Parse` returns for the text. -/
def quotedURL : URL :=
  { Scheme := "foo", Text := "foo://h/?q=\"x\"" }

end peerprovider


namespace yab

open Go transport

/-- Go `time.Second`, a `time.Duration` in nanoseconds. -/
def Second : Int := 1000000000

/-- Modelled from the spec: the type `timeMillisFlag` of the CLI timeout option
and its method `Duration()` are declared outside `request.go`; the spec calls
the value the timeout override, a duration. It is held here as that duration,
in nanoseconds. -/
structure timeMillisFlag where
  ns : Int
deriving DecidableEq, Repr

/-- The method `Duration()` of the timeout option. -/
def timeMillisFlag.Duration (t : timeMillisFlag) : Int := t.ns

/-- Modelled from the spec: the type `encoding.Encoding` and its constants
`UnspecifiedEncoding`, `JSON`, `Thrift` and `Raw` are declared outside
`request.go`. The spec names the unset encoding option, the
structured-interface encoding (Thrift), the generic structured encoding (JSON),
raw bytes, and encoding kinds that are none of the known variants. -/
inductive Encoding where
  | UnspecifiedEncoding
  | JSON
  | Thrift
  | Raw
  | Unknown (name : String)
deriving DecidableEq, Repr

/-- The fields of `RequestOptions` (declared outside `request.go`) that the
request pipeline, `NewSerializer` and `detectEncoding` read. -/
structure RequestOptions where
  Timeout : timeMillisFlag
  Baggage : MapRef
  Encoding : yab.Encoding := yab.Encoding.UnspecifiedEncoding
  ThriftFile : String := ""
  Procedure : String := ""
  ThriftMultiplexed : Bool := false
  Health : Bool := false
deriving DecidableEq

/-- The fields of `TransportOptions` (declared outside `request.go`) that the
request pipeline reads. -/
structure TransportOptions where
  ServiceName : String
  TransportHeaders : MapRef
deriving DecidableEq

/-- The struct `Options`. -/
structure Options where
  ROpts : RequestOptions
  TOpts : TransportOptions
deriving DecidableEq

/-- The map references of the options point into the heap. -/
def Options.Valid (h : Heap) (opts : Options) : Prop :=
  h.ValidMap opts.ROpts.Baggage ∧ h.ValidMap opts.TOpts.TransportHeaders

instance (h : Heap) (opts : Options) : Decidable (opts.Valid h) := by
  unfold Options.Valid
  infer_instance

/-- Source: `appendMap`. -/
def appendMap (h : Heap) (dest src : MapRef) : Heap × MapRef :=
  let (h1, res) :=
    match dest with
    | none => h.makeMap
    | some a => (h, a)
  let h2 := (h1.mapEntries src).foldl (fun hh kv => hh.mapStore res kv.1 kv.2) h1
  (h2, some res)

/-- Source: `newRequestWithCLIOverrides`. -/
def newRequestWithCLIOverrides (h : Heap) (prevReq : Request) (headers : MapRef)
    (opts : Options) : Heap × Request :=
  let (h1, req) := prevReq.DeepCopy h
  let timeout := opts.ROpts.Timeout.Duration
  let timeout := if timeout = 0 then Second else timeout
  let (h2, hs) := appendMap h1 req.Headers headers
  let req := { req with Headers := hs }
  let (h3, ths) := appendMap h2 req.TransportHeaders opts.TOpts.TransportHeaders
  let req := { req with TransportHeaders := ths }
  let (h4, bg) := appendMap h3 req.Baggage opts.ROpts.Baggage
  let req := { req with Baggage := bg }
  (h4, { req with Timeout := timeout })

/-- The bindings of `o` written one by one over `m`, as the loop of `appendMap`
does. -/
def overlay (m o : MapObj) : MapObj :=
  o.entries.foldl (fun acc e => acc.insert e.1 e.2) m

/-- A Go `[]byte` value that is not written in place: `none` is the nil slice. -/
abbrev Bytes := Option (List UInt8)

/-- Go `len(b)`. -/
def Bytes.len (b : Bytes) : Nat :=
  match b with
  | none => 0
  | some l => l.length

/-- Go `[]byte(s)`: the UTF-8 encoding of the string. -/
def bytesOfString (s : String) : Bytes :=
  some (s.data.flatMap String.utf8EncodeChar)

/-- What the parser leaves in `headers` when `yaml.Unmarshal(contents, &headers)`
returns: an error, or no error and the map now held by the variable (`none` when
it is still nil). -/
inductive YamlResult where
  | error (msg : String)
  | ok (m : Option MapObj)
deriving DecidableEq

/-- The collaborators of input acquisition: what `ioutil.ReadAll(os.Stdin)`
returns, what `ioutil.ReadFile` returns for each name, and `yaml.Unmarshal`
into a nil `map[string]string`. -/
structure Env where
  readStdin : Bytes × GoError
  readFile : String → Bytes × GoError
  yamlUnmarshal : List UInt8 → YamlResult

/-- The calls made to the collaborators. -/
inductive Effect where
  | ReadStdin
  | ReadFile (name : String)
  | Unmarshal (contents : List UInt8)
deriving DecidableEq, Repr

/-- The result of `getRequestInput`, with the calls it made. -/
structure InputResult where
  bytes : Bytes
  err : GoError
  effects : List Effect
deriving DecidableEq

/-- Source: `getRequestInput`. -/
def getRequestInput (env : Env) (inline file : String) : InputResult :=
  if file = "-" ∨ inline = "-" then
    { bytes := env.readStdin.1, err := env.readStdin.2, effects := [.ReadStdin] }
  else if file ≠ "" then
    match (env.readFile file).2 with
    | some e =>
      { bytes := none, err := some ("failed to open request file: " ++ e),
        effects := [.ReadFile file] }
    | none => { bytes := (env.readFile file).1, err := none, effects := [.ReadFile file] }
  else if inline ≠ "" then
    { bytes := bytesOfString inline, err := none, effects := [] }
  else
    { bytes := none, err := none, effects := [] }

/-- The result of `getHeaders`: the heap, the returned map and error, and the
calls made. -/
structure HeadersResult where
  heap : Heap
  headers : MapRef
  err : GoError
  effects : List Effect
deriving DecidableEq

/-- Source: `getHeaders`. `none` is a panic (assignment to an entry of a nil map). -/
def getHeaders (env : Env) (h : Heap) (inline file : String) (override : MapRef) :
    Option HeadersResult :=
  let input := getRequestInput env inline file
  match input.err with
  | some e => some { heap := h, headers := none, err := some e, effects := input.effects }
  | none =>
    if input.bytes.len = 0 then
      some { heap := h, headers := override, err := none, effects := input.effects }
    else
      let contents := input.bytes.getD []
      let effects := input.effects ++ [.Unmarshal contents]
      match env.yamlUnmarshal contents with
      | .error msg =>
        some { heap := h, headers := none, err := some ("unmarshal headers failed: " ++ msg),
               effects := effects }
      | .ok m =>
        let (h1, headers) : Heap × MapRef :=
          match m with
          | none => (h, none)
          | some obj => ({ h with maps := h.maps ++ [obj] }, some h.maps.length)
        match (h1.mapEntries override).foldlM (fun hh kv => hh.mapAssign headers kv.1 kv.2) h1 with
        | none => none
        | some h2 => some { heap := h2, headers := headers, err := none, effects := effects }

/-- A stand-in for the collaborators: empty standard input, no readable file,
a parser that reads every text as the mapping `a: b`. -/
def testEnv : Env :=
  { readStdin := (some [], none)
    readFile := fun _ => (none, some "no such file")
    yamlUnmarshal := fun _ => .ok (some ((∅ : MapObj).insert "a" "b")) }

/-- A heap holding the override map `{"a": "1"}`. -/
def overrideHeap : Heap :=
  { maps := [(∅ : MapObj).insert "a" "1"], bufs := [] }

end yab


namespace yab

open Go transport

/-- The heap of the test request with one more map, the header override
`{"beep": "cli"}`, at address 3. -/
def cliHeap : Heap :=
  { testHeap with maps := testHeap.maps ++ [(∅ : MapObj).insert "beep" "cli"] }

/-- Options with no timeout override, no baggage and no transport headers. -/
def noOptions : Options :=
  { ROpts := { Timeout := ⟨0⟩, Baggage := none }
    TOpts := { ServiceName := "bob", TransportHeaders := none } }

end yab


namespace yab

open Go transport

/-- Go `strings.Contains(s, substr)`. -/
def stringsContains (s substr : String) : Bool :=
  decide (Contains s substr)

/-- The errors `NewSerializer` returns: the package variables
`errHealthAndProcedure` (declared outside `request.go`; the spec calls it
`IncompatibleOptions`), `errMissingProcedure` and `errUnrecognizedEncoding`, and
the errors of the builders of package `encoding`, of type `X`. -/
inductive SerializerError (X : Type) where
  | errHealthAndProcedure
  | errMissingProcedure
  | errUnrecognizedEncoding
  | collaborator (e : X)
deriving DecidableEq, Repr

/-- The builders of package `encoding` that `NewSerializer` calls, declared
outside `request.go`: the method `GetHealth` of an encoding, `NewThrift`,
`NewJSON` and `NewRaw`. `S` is the type of serializers. -/
structure EncodingPkg (S X : Type) where
  GetHealth : Encoding → Option S × Option X
  NewThrift : String → String → Bool → Option S × Option X
  NewJSON : String → S
  NewRaw : String → S

/-- The calls made to the builders. -/
inductive BuilderCall where
  | GetHealth (e : Encoding)
  | NewThrift (thriftFile procedure : String) (multiplexed : Bool)
  | NewJSON (procedure : String)
  | NewRaw (procedure : String)
deriving DecidableEq, Repr

/-- The result of `NewSerializer`: the serializer and the error, and the calls
made to the builders. -/
structure SerializerResult (S X : Type) where
  serializer : Option S
  err : Option (SerializerError X)
  calls : List BuilderCall

/-- Source: `detectEncoding`. -/
def detectEncoding (opts : RequestOptions) : Encoding :=
  if opts.Encoding ≠ Encoding.UnspecifiedEncoding then opts.Encoding
  else if stringsContains opts.Procedure "::" = true ∨ opts.ThriftFile ≠ "" then Encoding.Thrift
  else Encoding.JSON

/-- The rule of the claim for the detected encoding: the explicit encoding when
one is specified; otherwise Thrift if and only if the procedure contains `::` or
a Thrift file is given, and JSON in every remaining case. -/
def detectEncodingRule (opts : RequestOptions) : Encoding :=
  match opts.Encoding with
  | Encoding.UnspecifiedEncoding =>
    if Contains opts.Procedure "::" ∨ opts.ThriftFile ≠ "" then Encoding.Thrift
    else Encoding.JSON
  | explicit => explicit

/-- Source: `NewSerializer`. -/
def NewSerializer {S X : Type} (pkg : EncodingPkg S X) (opts : RequestOptions) :
    SerializerResult S X :=
  if opts.Health = true then
    if opts.Procedure ≠ "" then
      { serializer := none, err := some .errHealthAndProcedure, calls := [] }
    else
      { serializer := (pkg.GetHealth opts.Encoding).1
        err := (pkg.GetHealth opts.Encoding).2.map .collaborator
        calls := [.GetHealth opts.Encoding] }
  else
    let e := detectEncoding opts
    if e = Encoding.Thrift then
      { serializer := (pkg.NewThrift opts.ThriftFile opts.Procedure opts.ThriftMultiplexed).1
        err := (pkg.NewThrift opts.ThriftFile opts.Procedure opts.ThriftMultiplexed).2.map
          .collaborator
        calls := [.NewThrift opts.ThriftFile opts.Procedure opts.ThriftMultiplexed] }
    else if opts.Procedure = "" then
      { serializer := none, err := some .errMissingProcedure, calls := [] }
    else
      match e with
      | Encoding.JSON =>
        { serializer := some (pkg.NewJSON opts.Procedure), err := none,
          calls := [.NewJSON opts.Procedure] }
      | Encoding.Raw =>
        { serializer := some (pkg.NewRaw opts.Procedure), err := none,
          calls := [.NewRaw opts.Procedure] }
      | _ => { serializer := none, err := some .errUnrecognizedEncoding, calls := [] }

/-- What `transportmiddleware.Apply(ctx, req)` returns, and the heap it leaves:
a request pointer (`none` is nil) and an error. -/
structure MiddlewareResult where
  heap : Heap
  req : Option Request
  err : GoError

/-- The collaborator `transportmiddleware.Apply`, declared outside `request.go`.
It is handed the time budget of its context and the request, and may write the
heap. -/
abbrev Middleware := Int → Heap → Request → MiddlewareResult

/-- Source: `newRequestWithMetadata`. -/
def newRequestWithMetadata (h : Heap) (prevReq : Request) (opts : TransportOptions) :
    Heap × Request :=
  let (h1, req) := prevReq.DeepCopy h
  (h1, { req with TargetService := opts.ServiceName })

/-- Source: `newRequestWithTransportMiddleware`. The context is
`context.WithTimeout(context.Background(), time.Second)`. -/
def newRequestWithTransportMiddleware (apply : Middleware) (h : Heap) (prevReq : Request) :
    MiddlewareResult :=
  apply Second h prevReq

/-- The result of `prepareRequest`: the heap it leaves, the returned request
pointer (`none` is nil) and error. -/
structure PrepareResult where
  heap : Heap
  req : Option Request
  err : GoError

/-- Source: `prepareRequest`. `none` is a panic: the nil pointer dereference of
`DeepCopy` when the middleware returns a nil request and a nil error. -/
def prepareRequest (apply : Middleware) (h : Heap) (req : Request) (headers : MapRef)
    (opts : Options) : Option PrepareResult :=
  let (h1, reqWithMeta) := newRequestWithMetadata h req opts.TOpts
  let mw := newRequestWithTransportMiddleware apply h1 reqWithMeta
  match mw.err with
  | some e => some { heap := mw.heap, req := none, err := some e }
  | none =>
    match mw.req with
    | none => none
    | some processedReq =>
      let (h3, q) := newRequestWithCLIOverrides mw.heap processedReq headers opts
      some { heap := h3, req := some q, err := none }

/-- A middleware that returns the request it is handed, unchanged. -/
def identityMiddleware : Middleware :=
  fun _ h req => { heap := h, req := some req, err := none }

/-- A middleware that writes the byte `j` over the first byte of the body of the
request it is handed and returns that request. -/
def bodyWritingMiddleware : Middleware :=
  fun _ h req =>
    match h.sliceStore req.Body 0 106 with
    | some h2 => { heap := h2, req := some req, err := none }
    | none => { heap := h, req := some req, err := none }

/-- A middleware that fails, returning a request together with its error. -/
def failingMiddleware : Middleware :=
  fun _ h req => { heap := h, req := some req, err := some "middleware failed" }

end yab

namespace peerprovider

/-- The state of the `sync.RWMutex`: the number of read holders and whether the
write lock is held. -/
structure LockState where
  readers : Nat
  writer : Bool
deriving DecidableEq, Repr

/-- The state of the lock after an event; calls of a provider leave it alone. -/
def LockState.step {W : Type} (s : LockState) : Event W → LockState
  | .RLock => { s with readers := s.readers + 1 }
  | .RUnlock => { s with readers := s.readers - 1 }
  | .Lock => { s with writer := true }
  | .Unlock => { s with writer := false }
  | .Call _ _ _ => s

/-- The state of the lock after a sequence of events. -/
def LockState.after {W : Type} (s : LockState) (events : List (Event W)) : LockState :=
  events.foldl LockState.step s

end peerprovider


namespace yab

open Go transport

/-- A middleware that returns a nil request and a nil error. -/
def nilMiddleware : Middleware :=
  fun _ h _ => { heap := h, req := none, err := none }

/-- A stand-in for the collaborators whose parser accepts every text and leaves
the map nil, as `yaml.Unmarshal` does for the text `null`. -/
def nullEnv : Env :=
  { readStdin := (some [], none)
    readFile := fun _ => (none, some "no such file")
    yamlUnmarshal := fun _ => .ok none }

/-- A heap holding the override map `{"a": "z"}`. -/
def overrideHeapZ : Heap :=
  { maps := [(∅ : MapObj).insert "a" "z"], bufs := [] }

end yab


namespace yab

open Go transport

/-- A stand-in for the builders of package `encoding`: serializers and errors
are texts naming the builder and the procedure. -/
def testPkg : EncodingPkg String String :=
  { GetHealth := fun _ => (some "health", none)
    NewThrift := fun _ procedure _ => (some ("thrift " ++ procedure), none)
    NewJSON := fun procedure => "json " ++ procedure
    NewRaw := fun procedure => "raw " ++ procedure }

/-- The options of the spec example: health check with the procedure `Foo`. -/
def healthWithProcedure : RequestOptions :=
  { Timeout := ⟨0⟩, Baggage := none, Health := true, Procedure := "Foo" }

/-- The options of the spec example: JSON encoding and no procedure. -/
def jsonWithoutProcedure : RequestOptions :=
  { Timeout := ⟨0⟩, Baggage := none, Encoding := Encoding.JSON, Procedure := "" }

end yab


/-! ## Heap lemmas -/

namespace Go

theorem foldl_insert_entries (l : List (Sigma fun _ : String => String)) :
    ∀ acc : MapObj, l.NodupKeys → (∀ e ∈ l, e.1 ∉ acc) →
      (l.foldl (fun m e => m.insert e.1 e.2) acc).entries = l.reverse ++ acc.entries := by
  induction l with
  | nil => intro acc _ _; simp
  | cons e t ih =>
    intro acc hnd hdis
    rw [List.nodupKeys_cons] at hnd
    have he : e.1 ∉ acc := hdis e (List.mem_cons_self _ _)
    have hdis2 : ∀ x ∈ t, x.1 ∉ acc.insert e.1 e.2 := by
      intro x hx hmem
      rw [AList.mem_insert] at hmem
      rcases hmem with heq | hin
      · apply hnd.1
        rw [← heq]
        exact List.mem_keys_of_mem hx
      · exact hdis x (List.mem_cons_of_mem _ hx) hin
    rw [List.foldl_cons, ih _ hnd.2 hdis2, AList.insert_entries_of_neg he]
    simp

theorem Heap.foldl_mapStore (l : List (String × String)) (a : Addr) :
    ∀ (h : Heap) (m : MapObj), h.maps[a]? = some m →
      l.foldl (fun hh kv => hh.mapStore a kv.1 kv.2) h =
        { h with maps := h.maps.set a (l.foldl (fun acc kv => acc.insert kv.1 kv.2) m) } := by
  induction l with
  | nil =>
    intro h m hm
    have : h.maps.set a m = h.maps := by
      apply List.ext_getElem?
      intro i
      by_cases hi : a = i
      · subst hi
        rw [List.getElem?_set_self]
        simp [hm]
        rw [List.getElem?_eq_some] at hm
        obtain ⟨hlt, _⟩ := hm
        exact hlt
      · rw [List.getElem?_set_ne hi]
    simp [this]
  | cons kv t ih =>
    intro h m hm
    have hlt : a < h.maps.length := by
      rw [List.getElem?_eq_some] at hm
      exact hm.1
    have hstore : h.mapStore a kv.1 kv.2 = { h with maps := h.maps.set a (m.insert kv.1 kv.2) } := by
      simp [Heap.mapStore, hm]
    rw [List.foldl_cons, hstore, ih _ (m.insert kv.1 kv.2)]
    · simp
    · simp [hlt]

end Go

namespace transport

open Go

theorem copyObj_entries (m : MapObj) : (copyObj m).entries = m.entries.reverse := by
  have h := foldl_insert_entries m.entries ∅ m.nodupKeys (fun _ _ => AList.not_mem_empty _)
  simpa [copyObj] using h

theorem lookup_copyObj (m : MapObj) (k : String) : (copyObj m).lookup k = m.lookup k :=
  AList.perm_lookup (by rw [copyObj_entries]; exact List.reverse_perm _)

theorem Heap.mapOf_append_of_valid (h : Heap) (m : MapRef) (hv : h.ValidMap m)
    (extra : List MapObj) :
    Heap.mapOf { h with maps := h.maps ++ extra } m = h.mapOf m := by
  cases m with
  | none => rfl
  | some a =>
    have hlt : a < h.maps.length := hv
    simp [Heap.mapOf, List.getElem?_append_left hlt]

theorem deepCopyMap_eq (h : Heap) (src : MapRef) (hv : h.ValidMap src) :
    deepCopyMap h src =
      ({ h with maps := h.maps ++ [copyObj (h.mapOf src)] }, some h.maps.length) := by
  have hent : Heap.mapEntries { h with maps := h.maps ++ [∅] } src =
      (h.mapOf src).entries.map (fun e => (e.1, e.2)) := by
    unfold Heap.mapEntries
    rw [Heap.mapOf_append_of_valid h src hv]
  have hget : (h.maps ++ [(∅ : MapObj)])[h.maps.length]? = some ∅ := by simp
  simp only [deepCopyMap, Heap.makeMap]
  rw [hent, Heap.foldl_mapStore _ _ _ ∅ hget]
  simp [copyObj, List.foldl_map]


theorem Heap.validMap_append (h : Heap) (m : MapRef) (hv : h.ValidMap m) (extra : List MapObj) :
    Heap.ValidMap { h with maps := h.maps ++ extra } m := by
  cases m with
  | none => trivial
  | some a =>
    have hlt : a < h.maps.length := hv
    show a < (h.maps ++ extra).length
    rw [List.length_append]
    exact Nat.lt_of_lt_of_le hlt (Nat.le_add_right _ _)

theorem Request.DeepCopy_eq (h : Heap) (r : Request) (hv : r.Valid h) :
    r.DeepCopy h =
      ({ h with maps := h.maps ++ [copyObj (h.mapOf r.Headers), copyObj (h.mapOf r.Baggage),
            copyObj (h.mapOf r.TransportHeaders)] },
        { r with Headers := some h.maps.length, Baggage := some (h.maps.length + 1),
                 TransportHeaders := some (h.maps.length + 2) }) := by
  obtain ⟨hH, hB, hT, _⟩ := hv
  have hB1 := Heap.validMap_append h _ hB [copyObj (h.mapOf r.Headers)]
  have hT1 := Heap.validMap_append h _ hT [copyObj (h.mapOf r.Headers)]
  have hT2 := Heap.validMap_append _ _ hT1 [copyObj (h.mapOf r.Baggage)]
  have e1 := deepCopyMap_eq h _ hH
  have e2 := deepCopyMap_eq _ _ hB1
  have e3 := deepCopyMap_eq _ _ hT2
  rw [Heap.mapOf_append_of_valid h _ hB] at e2
  rw [Heap.mapOf_append_of_valid _ _ hT1, Heap.mapOf_append_of_valid h _ hT] at e3
  simp only [Request.DeepCopy, e1, e2, e3]
  simp [List.append_assoc]

theorem MapWrite.run_frame (h h2 : Heap) (m : MapRef) (w : MapWrite)
    (hrun : w.run h m = some h2) (m2 : MapRef) (hne : m2 ≠ m) :
    h2.mapOf m2 = h.mapOf m2 ∧ h2.bufs = h.bufs := by
  cases m with
  | none =>
    cases w with
    | assign k v => simp [MapWrite.run, Heap.mapAssign] at hrun
    | delete k =>
      simp [MapWrite.run, Heap.mapDelete] at hrun
      subst hrun
      exact ⟨rfl, rfl⟩
  | some a =>
    have key : ∀ (f : MapObj → MapObj),
        (match h.maps[a]? with
          | some mo => ({ h with maps := h.maps.set a (f mo) } : Heap)
          | none => h) = h2 → h2.mapOf m2 = h.mapOf m2 ∧ h2.bufs = h.bufs := by
      intro f hf
      cases hget : h.maps[a]? with
      | none =>
        rw [hget] at hf
        subst hf
        exact ⟨rfl, rfl⟩
      | some mo =>
        rw [hget] at hf
        subst hf
        refine ⟨?_, rfl⟩
        cases m2 with
        | none => rfl
        | some b =>
          have hab : a ≠ b := fun hab => hne (by rw [hab])
          simp [Heap.mapOf, List.getElem?_set_ne hab]
    cases w with
    | assign k v =>
      simp only [MapWrite.run, Heap.mapAssign, Option.some.injEq] at hrun
      exact key (fun mo => mo.insert k v) hrun
    | delete k =>
      simp only [MapWrite.run, Heap.mapDelete, Option.some.injEq] at hrun
      exact key (fun mo => mo.erase k) hrun

theorem MapWrite.run_valid (h : Heap) (a : Addr) (w : MapWrite) (hlt : a < h.maps.length) :
    ∃ h2, w.run h (some a) = some h2 ∧ h2.mapOf (some a) = w.on (h.mapOf (some a)) := by
  have hget : h.maps[a]? = some (h.maps[a]) := List.getElem?_eq_getElem hlt
  cases w with
  | assign k v =>
    refine ⟨_, rfl, ?_⟩
    simp [Heap.mapStore, Heap.mapOf, MapWrite.on, hget, hlt]
  | delete k =>
    refine ⟨_, rfl, ?_⟩
    simp [Heap.mapDelete, Heap.mapErase, Heap.mapOf, MapWrite.on, hget, hlt]


theorem Request.mapField_valid (h : Heap) (r : Request) (hv : r.Valid h) (g : MapField) :
    h.ValidMap (r.mapField g) := by
  obtain ⟨hH, hB, hT, _⟩ := hv
  cases g
  · exact hH
  · exact hB
  · exact hT

theorem Request.DeepCopy_mapField (h : Heap) (r : Request) (hv : r.Valid h) (g : MapField) :
    ∃ i, i < 3 ∧ (r.DeepCopy h).2.mapField g = some (h.maps.length + i) ∧
      (r.DeepCopy h).1.maps.length = h.maps.length + 3 := by
  rw [Request.DeepCopy_eq h r hv]
  cases g
  · exact ⟨0, by decide, rfl, by simp⟩
  · exact ⟨1, by decide, rfl, by simp⟩
  · exact ⟨2, by decide, rfl, by simp⟩

theorem Request.DeepCopy_mapOf_source (h : Heap) (r : Request) (hv : r.Valid h) (g : MapField) :
    (r.DeepCopy h).1.mapOf (r.mapField g) = h.mapOf (r.mapField g) := by
  rw [Request.DeepCopy_eq h r hv]
  exact Heap.mapOf_append_of_valid h _ (Request.mapField_valid h r hv g) _

theorem Request.DeepCopy_ne_source (h : Heap) (r : Request) (hv : r.Valid h) (f g : MapField) :
    r.mapField g ≠ (r.DeepCopy h).2.mapField f := by
  obtain ⟨i, _, hi, _⟩ := Request.DeepCopy_mapField h r hv f
  have hg := Request.mapField_valid h r hv g
  rw [hi]
  intro heq
  rw [heq] at hg
  have hlt : h.maps.length + i < h.maps.length := hg
  exact Nat.lt_irrefl _ (Nat.lt_of_le_of_lt (Nat.le_add_right _ _) hlt)

/-- C1: after `d = r.DeepCopy()`, any insertion, overwrite or deletion on one of
the three maps of `d` succeeds, takes effect on that map of `d`, and leaves each
of the three maps of `r` exactly as it was (before the write and before the
copy); and any such write on a map of `r` that does not panic leaves each of the
three maps of `d` exactly as it was, such a write succeeding and taking effect
on the map of `r` whenever that map is not nil. -/
theorem deepCopy_maps_independent (h : Heap) (r : Request) (hv : r.Valid h)
    (f : MapField) (w : MapWrite) :
    (∃ h2, w.run (r.DeepCopy h).1 ((r.DeepCopy h).2.mapField f) = some h2 ∧
        h2.mapOf ((r.DeepCopy h).2.mapField f) =
          w.on ((r.DeepCopy h).1.mapOf ((r.DeepCopy h).2.mapField f)) ∧
        ∀ g, h2.mapOf (r.mapField g) = (r.DeepCopy h).1.mapOf (r.mapField g) ∧
          h2.mapOf (r.mapField g) = h.mapOf (r.mapField g)) ∧
    (∀ h2, w.run (r.DeepCopy h).1 (r.mapField f) = some h2 →
        ∀ g, h2.mapOf ((r.DeepCopy h).2.mapField g) =
          (r.DeepCopy h).1.mapOf ((r.DeepCopy h).2.mapField g)) ∧
    (r.mapField f ≠ none →
      ∃ h2, w.run (r.DeepCopy h).1 (r.mapField f) = some h2 ∧
        h2.mapOf (r.mapField f) = w.on (h.mapOf (r.mapField f))) := by
  refine ⟨?_, ?_, ?_⟩
  · obtain ⟨i, hi3, hi, hlen⟩ := Request.DeepCopy_mapField h r hv f
    have hlt : h.maps.length + i < (r.DeepCopy h).1.maps.length := by
      rw [hlen]
      exact Nat.add_lt_add_left hi3 _
    obtain ⟨h2, hrun, heff⟩ := MapWrite.run_valid (r.DeepCopy h).1 _ w hlt
    rw [← hi] at hrun heff
    refine ⟨h2, hrun, heff, ?_⟩
    intro g
    have hfr := (MapWrite.run_frame _ _ _ _ hrun (r.mapField g)
      (Request.DeepCopy_ne_source h r hv f g)).1
    exact ⟨hfr, hfr.trans (Request.DeepCopy_mapOf_source h r hv g)⟩
  · intro h2 hrun g
    exact (MapWrite.run_frame _ _ _ _ hrun _
      (fun heq => Request.DeepCopy_ne_source h r hv g f heq.symm)).1
  · intro hne
    have hsrc := Request.DeepCopy_mapOf_source h r hv f
    have hval := Request.mapField_valid h r hv f
    obtain ⟨_, _, _, hlen⟩ := Request.DeepCopy_mapField h r hv f
    cases hf : r.mapField f with
    | none => exact absurd hf hne
    | some a =>
      rw [hf] at hsrc hval
      have hlt : a < (r.DeepCopy h).1.maps.length := by
        rw [hlen]
        exact Nat.lt_of_lt_of_le hval (Nat.le_add_right _ _)
      obtain ⟨h2, hrun, heff⟩ := MapWrite.run_valid (r.DeepCopy h).1 a w hlt
      exact ⟨h2, hrun, by rw [heff, hsrc]⟩


theorem Heap.sliceBytes_length (h : Heap) (s : Slice) (hv : h.ValidSlice s) :
    (h.sliceBytes s).length = s.len := by
  unfold Heap.ValidSlice at hv
  unfold Heap.sliceBytes
  cases harr : s.arr with
  | none =>
    rw [harr] at hv
    simp [hv]
  | some a =>
    rw [harr] at hv
    simp only [List.length_take, List.length_drop]
    have := hv.1
    omega

theorem Heap.sliceStore_frame (h h2 : Heap) (s : Slice) (i : Nat) (x : UInt8)
    (hst : h.sliceStore s i x = some h2) (t : Slice) (hne : t.arr ≠ s.arr) :
    h2.sliceBytes t = h.sliceBytes t ∧ h2.maps = h.maps := by
  unfold Heap.sliceStore at hst
  split at hst
  · cases harr : s.arr with
    | none => simp [harr] at hst
    | some a =>
      rw [harr] at hst hne
      cases hget : h.bufs[a]? with
      | none => simp [hget] at hst
      | some b =>
        simp only [hget, Option.some.injEq] at hst
        subst hst
        refine ⟨?_, rfl⟩
        unfold Heap.sliceBytes
        cases htarr : t.arr with
        | none => rfl
        | some c =>
          have hac : a ≠ c := fun hac => hne (by rw [htarr, hac])
          simp [List.getElem?_set_ne hac]
  · simp at hst

theorem Heap.sliceStore_same (h : Heap) (s : Slice) (i : Nat) (x : UInt8)
    (hv : h.ValidSlice s) (hi : i < s.len) :
    ∃ h2, h.sliceStore s i x = some h2 ∧ h2.sliceBytes s = (h.sliceBytes s).set i x := by
  unfold Heap.ValidSlice at hv
  cases harr : s.arr with
  | none =>
    rw [harr] at hv
    omega
  | some a =>
    rw [harr] at hv
    obtain ⟨hlen, ha⟩ := hv
    have hget : h.bufs[a]? = some (h.bufs[a]) := List.getElem?_eq_getElem ha
    rw [hget] at hlen
    simp only [Option.getD_some] at hlen
    refine ⟨{ h with bufs := h.bufs.set a ((h.bufs[a]).set (s.off + i) x) }, ?_, ?_⟩
    · simp [Heap.sliceStore, hi, harr, hget]
    · simp only [Heap.sliceBytes, harr, hget, Option.getD_some]
      rw [List.getElem?_set_self ha]
      simp only [Option.getD_some]
      apply List.ext_getElem?
      intro j
      simp only [List.getElem?_take, List.getElem?_drop, List.getElem?_set]
      by_cases hj : j < s.len
      · simp only [hj, if_true]
        by_cases hij : i = j
        · subst hij
          simp only [if_true, List.length_take, List.length_drop, Nat.lt_min]
          rw [if_pos (by omega), if_pos ⟨hj, by omega⟩]
        · have : s.off + i ≠ s.off + j := by omega
          simp [hij, this]
      · simp only [hj, if_false]
        by_cases hij : i = j
        · omega
        · simp [hij, hj]


theorem Heap.sliceBytes_append_of_valid (h : Heap) (s : Slice) (hv : h.ValidSlice s)
    (extra : List (List UInt8)) :
    Heap.sliceBytes { h with bufs := h.bufs ++ extra } s = h.sliceBytes s := by
  unfold Heap.ValidSlice at hv
  unfold Heap.sliceBytes
  cases harr : s.arr with
  | none => rfl
  | some a =>
    rw [harr] at hv
    simp [List.getElem?_append_left hv.2]

theorem deepCopyBytes_eq (h : Heap) (src : Slice) (hv : h.ValidSlice src) :
    deepCopyBytes h src =
      ({ h with bufs := h.bufs ++ [h.sliceBytes src] },
        ⟨some h.bufs.length, 0, src.len, src.len⟩) := by
  have hlen := Heap.sliceBytes_length h src hv
  have hsrc := Heap.sliceBytes_append_of_valid h src hv [List.replicate src.len 0]
  have hget : (h.bufs ++ [List.replicate src.len (0 : UInt8)])[h.bufs.length]? =
      some (List.replicate src.len 0) := by simp
  simp only [deepCopyBytes, Heap.makeBytes, Heap.copy, hget, hsrc, Nat.min_self]
  have htake : (h.sliceBytes src).take src.len = h.sliceBytes src := by
    rw [← hlen, List.take_length]
  simp [htake, hlen]

/-- The guarantee of `deepCopyBytes` for a single buffer: the copy holds the
bytes of the source, and an in-place write through either slice leaves the
bytes seen through the other unchanged. -/
theorem deepCopyBytes_independent (h : Heap) (src : Slice) (hv : h.ValidSlice src) :
    (deepCopyBytes h src).1.sliceBytes (deepCopyBytes h src).2 = h.sliceBytes src ∧
    (deepCopyBytes h src).1.sliceBytes src = h.sliceBytes src ∧
    (∀ i x h2, (deepCopyBytes h src).1.sliceStore (deepCopyBytes h src).2 i x = some h2 →
      h2.sliceBytes src = h.sliceBytes src) ∧
    (∀ i x h2, (deepCopyBytes h src).1.sliceStore src i x = some h2 →
      h2.sliceBytes (deepCopyBytes h src).2 = h.sliceBytes src) := by
  have hlen := Heap.sliceBytes_length h src hv
  have hsrc := Heap.sliceBytes_append_of_valid h src hv [h.sliceBytes src]
  have hdst : Heap.sliceBytes { h with bufs := h.bufs ++ [h.sliceBytes src] }
      ⟨some h.bufs.length, 0, src.len, src.len⟩ = h.sliceBytes src := by
    generalize h.sliceBytes src = bytes at hlen
    simp only [Heap.sliceBytes]
    simp [← hlen]
  have hne : src.arr ≠ some h.bufs.length := by
    intro heq
    unfold Heap.ValidSlice at hv
    rw [heq] at hv
    exact Nat.lt_irrefl _ hv.2
  rw [deepCopyBytes_eq h src hv]
  refine ⟨hdst, hsrc, ?_, ?_⟩
  · intro i x h2 hst
    rw [(Heap.sliceStore_frame _ _ _ _ _ hst src hne).1]
    exact hsrc
  · intro i x h2 hst
    rw [(Heap.sliceStore_frame _ _ _ _ _ hst _ (fun heq => hne heq.symm)).1]
    exact hdst

/-- In-place writes through the body of a deep copy are seen through the body
of its source: `DeepCopy` hands on the slice header of `r.Body`. -/
theorem Request.DeepCopy_body_aliased (h : Heap) (r : Request) (hv : r.Valid h)
    (i : Nat) (x : UInt8) (hi : i < r.Body.len) :
    ∃ h2, (r.DeepCopy h).1.sliceStore (r.DeepCopy h).2.Body i x = some h2 ∧
      h2.sliceBytes r.Body = (h.sliceBytes r.Body).set i x := by
  have hvb : h.ValidSlice r.Body := hv.2.2.2
  rw [Request.DeepCopy_eq h r hv]
  exact Heap.sliceStore_same _ r.Body i x hvb hi

/-- C2, evaluated on the request of `request_test.go`: after `d = r.DeepCopy()`
the body of `r` reads "hello world"; the write `d.Body[0] = 'j'` succeeds, and
afterwards the body of `r` reads "jello world". -/
theorem deepCopy_body_shares_storage :
    (testRequest.DeepCopy testHeap).1.sliceBytes testRequest.Body =
        [104, 101, 108, 108, 111, 32, 119, 111, 114, 108, 100] ∧
      ((testRequest.DeepCopy testHeap).1.sliceStore
          (testRequest.DeepCopy testHeap).2.Body 0 106).map
        (fun h2 => h2.sliceBytes testRequest.Body) =
        some [106, 101, 108, 108, 111, 32, 119, 111, 114, 108, 100] := by
  decide


theorem Heap.mapOf_append_new (h : Heap) (extra : List MapObj) (i : Nat) :
    Heap.mapOf { h with maps := h.maps ++ extra } (some (h.maps.length + i)) =
      (extra[i]?).getD ∅ := by
  simp [Heap.mapOf, List.getElem?_append_right]

theorem Heap.deepEqualMap_copy (h1 : Heap) (m : MapRef) (c : Addr)
    (hc : h1.mapOf (some c) = copyObj (h1.mapOf m)) :
    h1.deepEqualMap m (some c) = m.isSome := by
  cases m with
  | none => rfl
  | some x =>
    have hlen : h1.mapLen (some x) = h1.mapLen (some c) := by
      unfold Heap.mapLen
      rw [hc, copyObj_entries, List.length_reverse]
    have hall : (h1.mapEntries (some x)).all
        (fun kv => h1.mapLookup (some c) kv.1 == some kv.2) = true := by
      rw [List.all_eq_true]
      intro kv hkv
      unfold Heap.mapEntries at hkv
      rw [List.mem_map] at hkv
      obtain ⟨e, he, hekv⟩ := hkv
      subst hekv
      unfold Heap.mapLookup
      rw [hc, lookup_copyObj]
      have : e.2 ∈ (h1.mapOf (some x)).lookup e.1 := AList.mem_lookup_iff.mpr he
      simpa using this
    simp [Heap.deepEqualMap, hlen, hall]

theorem Heap.deepEqualBytes_self (h : Heap) (s : Slice) : h.deepEqualBytes s s = true := by
  unfold Heap.deepEqualBytes
  cases s.arr <;> simp

/-- C3 (amended): the deep copy has the scalar fields and the body slice of its
source and three non-nil maps with exactly the bindings of the source maps;
under the deep equality of the test it equals the source exactly when none of
the three maps of the source is nil. -/
theorem deepCopy_deepEqual_iff (h : Heap) (r : Request) (hv : r.Valid h) :
    (r.DeepCopy h).2.Method = r.Method ∧ (r.DeepCopy h).2.Timeout = r.Timeout ∧
    (r.DeepCopy h).2.ShardKey = r.ShardKey ∧ (r.DeepCopy h).2.Body = r.Body ∧
    (r.DeepCopy h).2.TargetService = r.TargetService ∧
    (∀ g, (r.DeepCopy h).2.mapField g ≠ none ∧
      (r.DeepCopy h).1.mapLen ((r.DeepCopy h).2.mapField g) = h.mapLen (r.mapField g) ∧
      ∀ k, (r.DeepCopy h).1.mapLookup ((r.DeepCopy h).2.mapField g) k =
        h.mapLookup (r.mapField g) k) ∧
    (r.deepEqual (r.DeepCopy h).1 (r.DeepCopy h).2 = true ↔ ∀ g, r.mapField g ≠ none) := by
  have hsrc := Request.DeepCopy_mapOf_source h r hv
  have hcopy : ∀ g, ∃ c, (r.DeepCopy h).2.mapField g = some c ∧
      (r.DeepCopy h).1.mapOf (some c) = copyObj (h.mapOf (r.mapField g)) := by
    intro g
    rw [Request.DeepCopy_eq h r hv]
    cases g
    · exact ⟨h.maps.length, rfl, Heap.mapOf_append_new h _ 0⟩
    · exact ⟨h.maps.length + 1, rfl, Heap.mapOf_append_new h _ 1⟩
    · exact ⟨h.maps.length + 2, rfl, Heap.mapOf_append_new h _ 2⟩
  have hde : ∀ g, (r.DeepCopy h).1.deepEqualMap (r.mapField g) ((r.DeepCopy h).2.mapField g) =
      (r.mapField g).isSome := by
    intro g
    obtain ⟨c, hc, hobj⟩ := hcopy g
    rw [hc]
    apply Heap.deepEqualMap_copy
    rw [hobj, hsrc g]
  have hscal : (r.DeepCopy h).2.Method = r.Method ∧ (r.DeepCopy h).2.Timeout = r.Timeout ∧
      (r.DeepCopy h).2.ShardKey = r.ShardKey ∧ (r.DeepCopy h).2.Body = r.Body ∧
      (r.DeepCopy h).2.TargetService = r.TargetService := by
    rw [Request.DeepCopy_eq h r hv]
    exact ⟨rfl, rfl, rfl, rfl, rfl⟩
  obtain ⟨hM, hTo, hS, hBo, hTs⟩ := hscal
  refine ⟨hM, hTo, hS, hBo, hTs, ?_, ?_⟩
  · intro g
    obtain ⟨c, hc, hobj⟩ := hcopy g
    rw [hc]
    refine ⟨by simp, ?_, ?_⟩
    · unfold Heap.mapLen
      rw [hobj, copyObj_entries, List.length_reverse]
    · intro k
      unfold Heap.mapLookup
      rw [hobj, lookup_copyObj]
  · have hH := hde .Headers
    have hB := hde .Baggage
    have hT := hde .TransportHeaders
    simp only [Request.mapField] at hH hB hT
    unfold Request.deepEqual
    rw [hH, hB, hT, hM, hTo, hS, hBo, hTs, Heap.deepEqualBytes_self]
    constructor
    · intro hall g
      simp only [Bool.and_eq_true] at hall
      cases g
      · intro hn; simp [Request.mapField] at hn; simp [hn] at hall
      · intro hn; simp [Request.mapField] at hn; simp [hn] at hall
      · intro hn; simp [Request.mapField] at hn; simp [hn] at hall
    · intro hg
      have h1 := Option.ne_none_iff_isSome.mp (hg .Headers)
      have h2 := Option.ne_none_iff_isSome.mp (hg .Baggage)
      have h3 := Option.ne_none_iff_isSome.mp (hg .TransportHeaders)
      simp only [Request.mapField] at h1 h2 h3
      simp [h1, h2, h3]

/-- C3, as stated, fails on a request whose maps are nil: the copy of
`&Request{Method: "GET"}` holds empty non-nil maps and is not deeply equal to
its source. -/
theorem deepCopy_nil_maps_not_deepEqual :
    bareRequest.Valid ⟨[], []⟩ ∧
      bareRequest.deepEqual (bareRequest.DeepCopy ⟨[], []⟩).1
        (bareRequest.DeepCopy ⟨[], []⟩).2 = false := by
  decide

end transport

namespace peerprovider

open Go

variable {W : Type}

theorem flatMap_appendEscapedRune_plain (isPrint : Char → Bool) (l : List Char)
    (hplain : ∀ c ∈ l, isPrint c = true ∧ c ≠ '"' ∧ c ≠ '\\') :
    l.flatMap (appendEscapedRune isPrint) = l := by
  induction l with
  | nil => rfl
  | cons c t ih =>
    obtain ⟨hp, hq, hb⟩ := hplain c (List.mem_cons_self _ _)
    have hc : appendEscapedRune isPrint c = [c] := by
      simp [appendEscapedRune, hp, hq, hb]
    rw [List.flatMap_cons, hc, ih (fun x hx => hplain x (List.mem_cons_of_mem _ hx))]
    rfl

theorem contains_quote_of_plain (isPrint : Char → Bool) (s : String)
    (hplain : ∀ c ∈ s.data, isPrint c = true ∧ c ≠ '"' ∧ c ≠ '\\') :
    Contains (Quote isPrint s) s := by
  unfold Contains Quote
  rw [flatMap_appendEscapedRune_plain isPrint _ hplain]
  exact ⟨['"'], ['"'], rfl⟩

theorem contains_trans {a b c : String} (hab : Contains b a) (hbc : Contains c b) :
    Contains c a :=
  List.IsInfix.trans hab hbc

theorem noProviderMessage_contains (isPrint : Char → Bool) (u : URL) :
    Contains (noProviderMessage isPrint u) (Quote isPrint u.Scheme) ∧
      Contains (noProviderMessage isPrint u) (Quote isPrint u.Text) := by
  unfold noProviderMessage Contains
  simp only [String.data_append]
  constructor
  · exact ⟨"no peer provider available for scheme ".data,
      " in URL ".data ++ (Quote isPrint u.Text).data, by simp⟩
  · exact ⟨"no peer provider available for scheme ".data ++ (Quote isPrint u.Scheme).data ++
      " in URL ".data, [], by simp⟩

/-- C4 (amended): for an unregistered scheme `Resolve` returns no peers and the
error `no peer provider available for scheme %q in URL %q`; the message holds
the scheme and the text of the URL as `%q` renders them, hence verbatim when
every character of them is printable and neither a double quote nor a
backslash; no provider is called, and registry and world are as before. -/
theorem resolve_unregistered (isPrint : Char → Bool) (st : State W) (ctx : Context) (u : URL)
    (hun : u.Scheme ∉ st.registry) :
    (Resolve isPrint st ctx u).1 = (none, some (noProviderMessage isPrint u)) ∧
    Contains (noProviderMessage isPrint u) (Quote isPrint u.Scheme) ∧
    Contains (noProviderMessage isPrint u) (Quote isPrint u.Text) ∧
    ((∀ c ∈ u.Scheme.data, isPrint c = true ∧ c ≠ '"' ∧ c ≠ '\\') →
      Contains (noProviderMessage isPrint u) u.Scheme) ∧
    ((∀ c ∈ u.Text.data, isPrint c = true ∧ c ≠ '"' ∧ c ≠ '\\') →
      Contains (noProviderMessage isPrint u) u.Text) ∧
    (Resolve isPrint st ctx u).2 =
      { st with trace := st.trace ++ [Event.RLock, Event.RUnlock] } := by
  have hnone : st.registry.lookup u.Scheme = none := AList.lookup_eq_none.mpr hun
  obtain ⟨hs, ht⟩ := noProviderMessage_contains isPrint u
  refine ⟨?_, hs, ht, ?_, ?_, ?_⟩
  · simp [Resolve, State.log, hnone]
  · intro hplain
    exact contains_trans (contains_quote_of_plain isPrint _ hplain) hs
  · intro hplain
    exact contains_trans (contains_quote_of_plain isPrint _ hplain) ht
  · simp [Resolve, State.log, hnone]

/-- C4, as stated, fails on a URL whose text holds a double quote: the scheme
`foo` is unregistered, and the message of the error holds the text of the URL
only in escaped form. -/
theorem resolve_unregistered_message_escapes :
    quotedURL.Scheme ∉ (State.empty ()).registry ∧
    (Resolve isPrintASCII (State.empty ()) ⟨none⟩ quotedURL).1 =
      (none, some
        "no peer provider available for scheme \"foo\" in URL \"foo://h/?q=\\\"x\\\"\"") ∧
    ¬ Contains
        "no peer provider available for scheme \"foo\" in URL \"foo://h/?q=\\\"x\\\"\""
        quotedURL.Text := by
  refine ⟨AList.not_mem_empty _, by decide, by decide⟩


theorem Resolve_of_lookup (isPrint : Char → Bool) (st : State W) (ctx : Context) (u : URL)
    (p : PeerProvider W) (hbound : st.registry.lookup u.Scheme = some p) :
    Resolve isPrint st ctx u =
      ((p.Resolve ctx u st.world).1,
        { registry := st.registry
          world := (p.Resolve ctx u st.world).2
          trace := st.trace ++ [Event.RLock, Event.RUnlock, Event.Call p ctx u] }) := by
  simp [Resolve, State.log, hbound]

/-- C5: when the scheme of the URL is bound to the provider `p`, `Resolve`
returns exactly the peer list and error `p.Resolve(ctx, u)` returns, the world
is the one that call leaves, the only provider call made is that one call, made
after the read lock is released, and the registry is as before. -/
theorem resolve_registered (isPrint : Char → Bool) (st : State W) (ctx : Context) (u : URL)
    (p : PeerProvider W) (hbound : st.registry.lookup u.Scheme = some p) :
    (Resolve isPrint st ctx u).1 = (p.Resolve ctx u st.world).1 ∧
    (Resolve isPrint st ctx u).2.world = (p.Resolve ctx u st.world).2 ∧
    (Resolve isPrint st ctx u).2.trace =
      st.trace ++ [Event.RLock, Event.RUnlock, Event.Call p ctx u] ∧
    (Resolve isPrint st ctx u).2.registry = st.registry := by
  rw [Resolve_of_lookup isPrint st ctx u p hbound]
  exact ⟨rfl, rfl, rfl, rfl⟩

theorem foldl_schemes (l : List String) :
    ∀ acc : List String,
      l.foldl (fun schemes scheme => if scheme ≠ "" then schemes ++ [scheme] else schemes) acc =
        acc ++ l.filter (fun scheme => decide (scheme ≠ "")) := by
  induction l with
  | nil => intro acc; simp
  | cons s t ih =>
    intro acc
    rw [List.foldl_cons, ih]
    by_cases hs : s = ""
    · simp [hs]
    · simp [hs]

theorem Schemes_eq (st : State W) :
    (Schemes st).1 = st.registry.keys.filter (fun scheme => decide (scheme ≠ "")) := by
  exact foldl_schemes st.registry.keys []

theorem RegisterPeerProvider_registry (st : State W) (scheme : String) (pp : PeerProvider W) :
    (RegisterPeerProvider st scheme pp).registry = st.registry.insert scheme pp := rfl

theorem mem_registerAll (calls : List (String × PeerProvider W)) :
    ∀ (st : State W) (s : String),
      s ∈ (registerAll st calls).registry ↔ s ∈ st.registry ∨ ∃ c ∈ calls, c.1 = s := by
  induction calls with
  | nil => intro st s; simp [registerAll]
  | cons c t ih =>
    intro st s
    have hstep : registerAll st (c :: t) = registerAll (RegisterPeerProvider st c.1 c.2) t := rfl
    rw [hstep, ih, RegisterPeerProvider_registry, AList.mem_insert]
    constructor
    · rintro ((h | h) | ⟨x, hx, hxs⟩)
      · exact Or.inr ⟨c, List.mem_cons_self _ _, h.symm⟩
      · exact Or.inl h
      · exact Or.inr ⟨x, List.mem_cons_of_mem _ hx, hxs⟩
    · rintro (h | ⟨x, hx, hxs⟩)
      · exact Or.inl (Or.inr h)
      · rcases List.mem_cons.mp hx with hxc | hxt
        · exact Or.inl (Or.inl (by rw [← hxs, hxc]))
        · exact Or.inr ⟨x, hxt, hxs⟩

/-- C6: in the state any sequence of `RegisterPeerProvider` calls leads to, from
any state, `Schemes()` holds the empty string zero times and every other scheme
once if it is a key of the registry and zero times if not; the keys of the
registry are those of the starting state and the schemes of the calls. -/
theorem schemes_registered_once (st0 : State W) (calls : List (String × PeerProvider W)) :
    "" ∉ (Schemes (registerAll st0 calls)).1 ∧
    (∀ s, (Schemes (registerAll st0 calls)).1.count s =
      if s ≠ "" ∧ s ∈ (registerAll st0 calls).registry then 1 else 0) ∧
    (∀ s, s ∈ (registerAll st0 calls).registry ↔
      s ∈ st0.registry ∨ ∃ c ∈ calls, c.1 = s) := by
  have hnd : ((registerAll st0 calls).registry.keys.filter
      (fun scheme => decide (scheme ≠ ""))).Nodup :=
    List.Nodup.filter _ (AList.keys_nodup _)
  refine ⟨?_, ?_, mem_registerAll calls st0⟩
  · rw [Schemes_eq]
    simp
  · intro s
    rw [Schemes_eq]
    by_cases hs : s ≠ "" ∧ s ∈ (registerAll st0 calls).registry
    · rw [if_pos hs]
      apply List.count_eq_one_of_mem hnd
      rw [List.mem_filter]
      exact ⟨AList.mem_keys.mp hs.2, by simpa using hs.1⟩
    · rw [if_neg hs]
      apply List.count_eq_zero_of_not_mem
      intro hmem
      rw [List.mem_filter] at hmem
      exact hs ⟨by simpa using hmem.2, AList.mem_keys.mpr hmem.1⟩

/-- C7: `RegisterPeerProvider` is a total function of the state; after
registering `p1` and then `p2` for the scheme `s`, the scheme is bound to `p2`,
every other scheme is bound as before the two calls, and `Resolve` on a URL of
scheme `s` calls `p2`, once, and returns what it returns. -/
theorem register_last_writer_wins (isPrint : Char → Bool) (st : State W) (s : String)
    (p1 p2 : PeerProvider W) (ctx : Context) (text : String) :
    (RegisterPeerProvider (RegisterPeerProvider st s p1) s p2).registry.lookup s = some p2 ∧
    (∀ s2, s2 ≠ s →
      (RegisterPeerProvider (RegisterPeerProvider st s p1) s p2).registry.lookup s2 =
        st.registry.lookup s2) ∧
    (Resolve isPrint (RegisterPeerProvider (RegisterPeerProvider st s p1) s p2) ctx
        ⟨s, text⟩).1 = (p2.Resolve ctx ⟨s, text⟩ st.world).1 ∧
    (Resolve isPrint (RegisterPeerProvider (RegisterPeerProvider st s p1) s p2) ctx
        ⟨s, text⟩).2.trace =
      st.trace ++ [Event.Lock, Event.Unlock, Event.Lock, Event.Unlock, Event.RLock,
        Event.RUnlock, Event.Call p2 ctx ⟨s, text⟩] := by
  have hl : (RegisterPeerProvider (RegisterPeerProvider st s p1) s p2).registry.lookup s =
      some p2 := by
    rw [RegisterPeerProvider_registry]
    exact AList.lookup_insert _
  refine ⟨hl, ?_, ?_, ?_⟩
  · intro s2 hne
    rw [RegisterPeerProvider_registry, RegisterPeerProvider_registry,
      AList.lookup_insert_ne hne, AList.lookup_insert_ne hne]
  · rw [Resolve_of_lookup isPrint _ ctx ⟨s, text⟩ p2 hl]
    rfl
  · rw [Resolve_of_lookup isPrint _ ctx ⟨s, text⟩ p2 hl]
    simp [RegisterPeerProvider, State.log]

end peerprovider

namespace yab

open Go transport

theorem lookup_foldl_insert (k : String) (l : List (Sigma fun _ : String => String)) :
    ∀ acc : MapObj, l.NodupKeys →
      (l.foldl (fun m e => m.insert e.1 e.2) acc).lookup k =
        match l.dlookup k with
        | some v => some v
        | none => acc.lookup k := by
  induction l with
  | nil => intro acc _; rfl
  | cons e t ih =>
    intro acc hnd
    rw [List.nodupKeys_cons] at hnd
    obtain ⟨e1, e2⟩ := e
    rw [List.foldl_cons, ih _ hnd.2]
    by_cases hk : k = e1
    · subst hk
      have hnone : List.dlookup k t = none := List.dlookup_eq_none.mpr hnd.1
      rw [hnone, List.dlookup_cons_eq]
      exact AList.lookup_insert _
    · rw [List.dlookup_cons_ne _ _ hk, AList.lookup_insert_ne hk]

theorem lookup_overlay (m o : MapObj) (k : String) :
    (overlay m o).lookup k =
      match o.lookup k with
      | some v => some v
      | none => m.lookup k :=
  lookup_foldl_insert k o.entries m o.nodupKeys

theorem appendMap_some (h : Heap) (a : Addr) (src : MapRef) (m : MapObj)
    (hm : h.maps[a]? = some m) :
    appendMap h (some a) src =
      ({ h with maps := h.maps.set a (overlay m (h.mapOf src)) }, some a) := by
  simp only [appendMap, Heap.mapEntries]
  rw [Heap.foldl_mapStore _ _ _ m hm]
  simp [overlay, List.foldl_map]

theorem appendMap_new (h : Heap) (extra : List MapObj) (i : Nat) (m : MapObj)
    (hi : extra[i]? = some m) (src : MapRef) (hsrc : h.ValidMap src) :
    appendMap { h with maps := h.maps ++ extra } (some (h.maps.length + i)) src =
      ({ h with maps := h.maps ++ extra.set i (overlay m (h.mapOf src)) },
        some (h.maps.length + i)) := by
  have hget : (h.maps ++ extra)[h.maps.length + i]? = some m := by
    rw [List.getElem?_append_right (Nat.le_add_right _ _), Nat.add_sub_cancel_left, hi]
  rw [appendMap_some _ _ _ m hget, Heap.mapOf_append_of_valid h _ hsrc]
  simp only [List.set_append_right _ _ (Nat.le_add_right _ _), Nat.add_sub_cancel_left]

theorem newRequestWithCLIOverrides_eq (h : Heap) (prevReq : Request) (headers : MapRef)
    (opts : Options) (hv : prevReq.Valid h) (hh : h.ValidMap headers) (ho : opts.Valid h) :
    newRequestWithCLIOverrides h prevReq headers opts =
      ({ h with maps := h.maps ++
            [overlay (copyObj (h.mapOf prevReq.Headers)) (h.mapOf headers),
             overlay (copyObj (h.mapOf prevReq.Baggage)) (h.mapOf opts.ROpts.Baggage),
             overlay (copyObj (h.mapOf prevReq.TransportHeaders))
               (h.mapOf opts.TOpts.TransportHeaders)] },
        { prevReq with
          Headers := some h.maps.length
          Baggage := some (h.maps.length + 1)
          TransportHeaders := some (h.maps.length + 2)
          Timeout := if opts.ROpts.Timeout.Duration = 0 then Second
            else opts.ROpts.Timeout.Duration }) := by
  obtain ⟨hoB, hoT⟩ := ho
  have hd := Request.DeepCopy_eq h prevReq hv
  have e1 := appendMap_new h [copyObj (h.mapOf prevReq.Headers),
    copyObj (h.mapOf prevReq.Baggage), copyObj (h.mapOf prevReq.TransportHeaders)] 0
    (copyObj (h.mapOf prevReq.Headers)) rfl headers hh
  have e2 := appendMap_new h [overlay (copyObj (h.mapOf prevReq.Headers)) (h.mapOf headers),
    copyObj (h.mapOf prevReq.Baggage), copyObj (h.mapOf prevReq.TransportHeaders)] 2
    (copyObj (h.mapOf prevReq.TransportHeaders)) rfl opts.TOpts.TransportHeaders hoT
  have e3 := appendMap_new h [overlay (copyObj (h.mapOf prevReq.Headers)) (h.mapOf headers),
    copyObj (h.mapOf prevReq.Baggage),
    overlay (copyObj (h.mapOf prevReq.TransportHeaders)) (h.mapOf opts.TOpts.TransportHeaders)]
    1 (copyObj (h.mapOf prevReq.Baggage)) rfl opts.ROpts.Baggage hoB
  simp only [List.set_cons_zero, List.set_cons_succ, Nat.add_zero] at e1 e2 e3
  simp only [newRequestWithCLIOverrides, hd, e1, e2, e3]


/-- C8: in the request `newRequestWithCLIOverrides` returns, every key of the
header override map carries the value of the override in `Headers`, whatever the
previous request held for it; likewise every key of the transport header
override in `TransportHeaders` and every key of the baggage override in
`Baggage`. -/
theorem cli_overrides_win (h : Heap) (prevReq : Request) (headers : MapRef) (opts : Options)
    (hv : prevReq.Valid h) (hh : h.ValidMap headers) (ho : opts.Valid h) :
    (∀ k v, h.mapLookup headers k = some v →
      (newRequestWithCLIOverrides h prevReq headers opts).1.mapLookup
        (newRequestWithCLIOverrides h prevReq headers opts).2.Headers k = some v) ∧
    (∀ k v, h.mapLookup opts.TOpts.TransportHeaders k = some v →
      (newRequestWithCLIOverrides h prevReq headers opts).1.mapLookup
        (newRequestWithCLIOverrides h prevReq headers opts).2.TransportHeaders k = some v) ∧
    (∀ k v, h.mapLookup opts.ROpts.Baggage k = some v →
      (newRequestWithCLIOverrides h prevReq headers opts).1.mapLookup
        (newRequestWithCLIOverrides h prevReq headers opts).2.Baggage k = some v) := by
  rw [newRequestWithCLIOverrides_eq h prevReq headers opts hv hh ho]
  refine ⟨?_, ?_, ?_⟩
  · intro k v hk
    unfold Heap.mapLookup at hk ⊢
    rw [show some h.maps.length = some (h.maps.length + 0) from rfl,
      Heap.mapOf_append_new h _ 0]
    simp [lookup_overlay, hk]
  · intro k v hk
    unfold Heap.mapLookup at hk ⊢
    rw [Heap.mapOf_append_new h _ 2]
    simp [lookup_overlay, hk]
  · intro k v hk
    unfold Heap.mapLookup at hk ⊢
    rw [Heap.mapOf_append_new h _ 1]
    simp [lookup_overlay, hk]

/-- C9: the request `newRequestWithCLIOverrides` returns has `Timeout` one
second (1000000000 ns) when the CLI timeout override is the zero duration and
the override otherwise; replacing the `Timeout` of the previous request by any
other value gives the same `Timeout`. -/
theorem cli_timeout_default (h : Heap) (prevReq : Request) (headers : MapRef) (opts : Options)
    (t : Int) :
    (newRequestWithCLIOverrides h prevReq headers opts).2.Timeout =
      (if opts.ROpts.Timeout.Duration = 0 then 1000000000 else opts.ROpts.Timeout.Duration) ∧
    (newRequestWithCLIOverrides h { prevReq with Timeout := t } headers opts).2.Timeout =
      (newRequestWithCLIOverrides h prevReq headers opts).2.Timeout :=
  ⟨rfl, rfl⟩

theorem getRequestInput_no_unmarshal (env : Env) (inline file : String) (c : List UInt8) :
    Effect.Unmarshal c ∉ (getRequestInput env inline file).effects := by
  unfold getRequestInput
  split
  · simp
  · split
    · split <;> simp
    · split <;> simp

/-- C10: when input acquisition succeeds with zero bytes, `getHeaders` returns
the override map itself, with no error, leaves the heap as it was, and makes no
call to the parser; the calls made are those of input acquisition. -/
theorem getHeaders_empty_input (env : Env) (h : Heap) (inline file : String)
    (override : MapRef)
    (herr : (getRequestInput env inline file).err = none)
    (hlen : (getRequestInput env inline file).bytes.len = 0) :
    getHeaders env h inline file override =
      some { heap := h, headers := override, err := none,
             effects := (getRequestInput env inline file).effects } ∧
    ∀ c, Effect.Unmarshal c ∉ (getRequestInput env inline file).effects := by
  refine ⟨?_, getRequestInput_no_unmarshal env inline file⟩
  simp [getHeaders, herr, hlen]

end yab

/-! ## Instances of the theorems on the test data -/

namespace transport

open Go

/-- C1 on the request of `request_test.go`: `dest.Headers["beep"] = ""` succeeds
on the copy and the source still reads `Headers["beep"] = "boop"`. -/
theorem deepCopy_maps_independent_witness :
    testRequest.Valid testHeap ∧
    ∃ h2, (MapWrite.assign "beep" "").run (testRequest.DeepCopy testHeap).1
        ((testRequest.DeepCopy testHeap).2.mapField .Headers) = some h2 ∧
      h2.mapOf (testRequest.mapField .Headers) = testHeap.mapOf (testRequest.mapField .Headers) :=
  ⟨by decide,
    match (deepCopy_maps_independent testHeap testRequest (by decide) .Headers
      (.assign "beep" "")).1 with
    | ⟨h2, hrun, _, hsrc⟩ => ⟨h2, hrun, (hsrc .Headers).2⟩⟩

/-- C3 on the request of `request_test.go`, whose maps are not nil: the copy is
deeply equal to the source. -/
theorem deepCopy_deepEqual_iff_witness :
    testRequest.Valid testHeap ∧
    testRequest.deepEqual (testRequest.DeepCopy testHeap).1
      (testRequest.DeepCopy testHeap).2 = true :=
  ⟨by decide,
    (deepCopy_deepEqual_iff testHeap testRequest (by decide)).2.2.2.2.2.2.mpr
      (fun g => by cases g <;> decide)⟩

end transport

namespace peerprovider

open Go

theorem init_eq_registerAll {W : Type} (filePeerProvider httpPeerProvider : PeerProvider W)
    (st : State W) :
    init filePeerProvider httpPeerProvider st =
      registerAll st [("", filePeerProvider), ("file", filePeerProvider),
        ("http", httpPeerProvider), ("https", httpPeerProvider)] :=
  rfl

/-- C4 on the empty registry and the URL `gopher://peers`: no peers, the error
of the unregistered scheme, and the text of the URL verbatim in its message. -/
theorem resolve_unregistered_witness :
    "gopher" ∉ (State.empty ()).registry ∧
    (Resolve isPrintASCII (State.empty ()) ⟨none⟩ ⟨"gopher", "gopher://peers"⟩).1 =
      (none, some (noProviderMessage isPrintASCII ⟨"gopher", "gopher://peers"⟩)) ∧
    Contains (noProviderMessage isPrintASCII ⟨"gopher", "gopher://peers"⟩) "gopher://peers" :=
  ⟨AList.not_mem_empty _,
    (resolve_unregistered isPrintASCII (State.empty ()) ⟨none⟩ ⟨"gopher", "gopher://peers"⟩
      (AList.not_mem_empty _)).1,
    (resolve_unregistered isPrintASCII (State.empty ()) ⟨none⟩ ⟨"gopher", "gopher://peers"⟩
      (AList.not_mem_empty _)).2.2.2.2.1 (by decide)⟩

/-- C5 on a registry binding `file` to a provider with one fixed peer: `Resolve`
returns that peer and no error. -/
theorem resolve_registered_witness :
    (RegisterPeerProvider (State.empty ()) "file" (fixedProvider "127.0.0.1:8080")).registry.lookup
        "file" = some (fixedProvider "127.0.0.1:8080") ∧
    (Resolve isPrintASCII
        (RegisterPeerProvider (State.empty ()) "file" (fixedProvider "127.0.0.1:8080"))
        ⟨none⟩ ⟨"file", "file:///peers.json"⟩).1 = (some ["127.0.0.1:8080"], none) :=
  ⟨AList.lookup_insert _,
    (resolve_registered isPrintASCII
      (RegisterPeerProvider (State.empty ()) "file" (fixedProvider "127.0.0.1:8080"))
      ⟨none⟩ ⟨"file", "file:///peers.json"⟩ (fixedProvider "127.0.0.1:8080")
      (AList.lookup_insert _)).1⟩

end peerprovider

namespace yab

open Go transport

/-- C8 on the test request and the header override `{"beep": "cli"}`: the final
request reads `Headers["beep"] = "cli"`, not the `"boop"` of the previous one. -/
theorem cli_overrides_win_witness :
    testRequest.Valid cliHeap ∧ cliHeap.ValidMap (some 3) ∧ noOptions.Valid cliHeap ∧
    cliHeap.mapLookup testRequest.Headers "beep" = some "boop" ∧
    (newRequestWithCLIOverrides cliHeap testRequest (some 3) noOptions).1.mapLookup
      (newRequestWithCLIOverrides cliHeap testRequest (some 3) noOptions).2.Headers "beep" =
        some "cli" :=
  ⟨by decide, by decide, by decide, by decide,
    (cli_overrides_win cliHeap testRequest (some 3) noOptions (by decide) (by decide)
      (by decide)).1 "beep" "cli" (by decide)⟩

/-- C10 on the example of the spec: `getHeaders("", "", {"a":"1"})` returns the
override map, which reads `{"a":"1"}`. -/
theorem getHeaders_empty_input_witness :
    (getRequestInput testEnv "" "").err = none ∧
    (getRequestInput testEnv "" "").bytes.len = 0 ∧
    getHeaders testEnv overrideHeap "" "" (some 0) =
      some { heap := overrideHeap, headers := some 0, err := none, effects := [] } ∧
    overrideHeap.mapLookup (some 0) "a" = some "1" :=
  ⟨rfl, rfl, (getHeaders_empty_input testEnv overrideHeap "" "" (some 0) rfl rfl).1, by decide⟩

end yab

/-! ## Header acquisition, encoding selection -/

namespace yab

open Go transport

theorem foldlM_mapAssign_some (l : List (String × String)) (a : Addr) :
    ∀ h : Heap, l.foldlM (fun hh kv => hh.mapAssign (some a) kv.1 kv.2) h =
      some (l.foldl (fun hh kv => hh.mapStore a kv.1 kv.2) h) := by
  induction l with
  | nil => intro h; rfl
  | cons kv t ih =>
    intro h
    rw [List.foldlM_cons, List.foldl_cons]
    show (some (h.mapStore a kv.1 kv.2)).bind _ = _
    rw [Option.some_bind, ih]

theorem getHeaders_ok_eq (env : Env) (h : Heap) (inline file : String) (override : MapRef)
    (hv : h.ValidMap override)
    (herr : (getRequestInput env inline file).err = none)
    (hlen : (getRequestInput env inline file).bytes.len ≠ 0) (m : MapObj)
    (hy : env.yamlUnmarshal ((getRequestInput env inline file).bytes.getD []) = .ok (some m)) :
    getHeaders env h inline file override =
      some { heap := { h with maps := h.maps ++ [overlay m (h.mapOf override)] }
             headers := some h.maps.length
             err := none
             effects := (getRequestInput env inline file).effects ++
               [.Unmarshal ((getRequestInput env inline file).bytes.getD [])] } := by
  have hfold := foldlM_mapAssign_some
    (Heap.mapEntries { h with maps := h.maps ++ [m] } override) h.maps.length
    { h with maps := h.maps ++ [m] }
  have happ := appendMap_new h [m] 0 m rfl override hv
  have hheap : (Heap.mapEntries { h with maps := h.maps ++ [m] } override).foldl
      (fun hh kv => hh.mapStore h.maps.length kv.1 kv.2) { h with maps := h.maps ++ [m] } =
      { h with maps := h.maps ++ [overlay m (h.mapOf override)] } := by
    have := congrArg Prod.fst happ
    simpa [appendMap] using this
  rw [hheap] at hfold
  simp only [getHeaders, herr, hlen, if_false, hy, hfold]

/-- The overlay of `getHeaders` on a parsed map that is not nil: when input
acquisition succeeds with at least one byte and the parser leaves the non-nil
mapping `m` in `headers`, `getHeaders` returns without error a map that
binds each key of the override to the value of the override and each other key
as `m` binds it, and no further key; the override map is left as it was. When
the parser rejects the input, `getHeaders` returns a nil map and the error
`unmarshal headers failed`. -/
theorem getHeaders_overlay (env : Env) (h : Heap) (inline file : String) (override : MapRef)
    (hv : h.ValidMap override)
    (herr : (getRequestInput env inline file).err = none)
    (hlen : (getRequestInput env inline file).bytes.len ≠ 0) :
    (∀ m, env.yamlUnmarshal ((getRequestInput env inline file).bytes.getD []) = .ok (some m) →
      ∃ res, getHeaders env h inline file override = some res ∧ res.err = none ∧
        res.headers ≠ none ∧
        (∀ k, res.heap.mapLookup res.headers k =
          match h.mapLookup override k with
          | some v => some v
          | none => m.lookup k) ∧
        res.heap.mapOf override = h.mapOf override) ∧
    (∀ msg, env.yamlUnmarshal ((getRequestInput env inline file).bytes.getD []) = .error msg →
      getHeaders env h inline file override =
        some { heap := h, headers := none, err := some ("unmarshal headers failed: " ++ msg)
               effects := (getRequestInput env inline file).effects ++
                 [.Unmarshal ((getRequestInput env inline file).bytes.getD [])] }) := by
  constructor
  · intro m hy
    refine ⟨_, getHeaders_ok_eq env h inline file override hv herr hlen m hy, rfl, by simp,
      ?_, ?_⟩
    · intro k
      show (Heap.mapOf _ (some (h.maps.length + 0))).lookup k = _
      rw [Heap.mapOf_append_new h _ 0]
      exact lookup_overlay m (h.mapOf override) k
    · exact Heap.mapOf_append_of_valid h override hv _
  · intro msg hy
    simp only [getHeaders, herr, hlen, if_false, hy]

/-- C12: with `Health` set and a procedure given, `NewSerializer` returns no
serializer and `errHealthAndProcedure`, whatever the other options, and calls
no builder; with `Health` set and no procedure it calls `GetHealth` of the
encoding option, once, and returns what that returns. -/
theorem newSerializer_health {S X : Type} (pkg : EncodingPkg S X) (opts : RequestOptions)
    (hhealth : opts.Health = true) :
    (opts.Procedure ≠ "" →
      (NewSerializer pkg opts).serializer = none ∧
      (NewSerializer pkg opts).err = some SerializerError.errHealthAndProcedure ∧
      (NewSerializer pkg opts).calls = []) ∧
    (opts.Procedure = "" →
      (NewSerializer pkg opts).serializer = (pkg.GetHealth opts.Encoding).1 ∧
      (NewSerializer pkg opts).err =
        (pkg.GetHealth opts.Encoding).2.map SerializerError.collaborator ∧
      (NewSerializer pkg opts).calls = [BuilderCall.GetHealth opts.Encoding]) := by
  constructor
  · intro hp
    simp [NewSerializer, hhealth, hp]
  · intro hp
    simp [NewSerializer, hhealth, hp]

theorem stringsContains_iff (s substr : String) :
    stringsContains s substr = true ↔ Contains s substr := by
  simp [stringsContains]

/-- C13: `detectEncoding` is the rule of the claim on every options bundle: an
encoding other than `UnspecifiedEncoding` is returned as it is, whatever the
procedure and the Thrift file; with `UnspecifiedEncoding` the result is Thrift
exactly when the procedure contains `::` or a Thrift file is given, and JSON
otherwise; the procedure `Thrift::Method` with no explicit encoding gives
Thrift. -/
theorem detectEncoding_rule {S X : Type} (pkg : EncodingPkg S X) (opts : RequestOptions) :
    detectEncoding opts = detectEncodingRule opts ∧
    (opts.Encoding ≠ Encoding.UnspecifiedEncoding → detectEncoding opts = opts.Encoding) ∧
    (opts.Encoding = Encoding.UnspecifiedEncoding →
      (detectEncoding opts = Encoding.Thrift ↔
        (Contains opts.Procedure "::" ∨ opts.ThriftFile ≠ "")) ∧
      (¬ (Contains opts.Procedure "::" ∨ opts.ThriftFile ≠ "") →
        detectEncoding opts = Encoding.JSON)) ∧
    detectEncoding { opts with Encoding := Encoding.UnspecifiedEncoding,
                               Procedure := "Thrift::Method" } = Encoding.Thrift ∧
    (NewSerializer pkg { opts with Health := false, Encoding := Encoding.UnspecifiedEncoding,
                                   Procedure := "Thrift::Method" }).calls =
      [BuilderCall.NewThrift opts.ThriftFile "Thrift::Method" opts.ThriftMultiplexed] := by
  have hc : stringsContains "Thrift::Method" "::" = true := by decide
  refine ⟨?_, ?_, ?_, ?_, ?_⟩
  · unfold detectEncoding detectEncodingRule
    cases henc : opts.Encoding <;> simp [stringsContains_iff]
  · intro hne
    simp [detectEncoding, hne]
  · intro heq
    by_cases hc : Contains opts.Procedure "::" ∨ opts.ThriftFile ≠ ""
    · have hc2 : stringsContains opts.Procedure "::" = true ∨ opts.ThriftFile ≠ "" := by
        rw [stringsContains_iff]
        exact hc
      simp [detectEncoding, heq, hc, hc2]
    · have hc2 : ¬ (stringsContains opts.Procedure "::" = true ∨ opts.ThriftFile ≠ "") := by
        rw [stringsContains_iff]
        exact hc
      simp [detectEncoding, heq, hc, if_neg hc2]
  · simp [detectEncoding, hc]
  · simp [NewSerializer, detectEncoding, hc]

/-- C14: without `Health`, `NewSerializer` returns `errMissingProcedure` exactly
when the detected encoding is not Thrift and the procedure is empty. An
unrecognised explicit encoding gives `errMissingProcedure` with an empty
procedure and `errUnrecognizedEncoding` with a procedure; JSON and Raw with a
procedure give their serializers; a bundle detected as Thrift is handed to
`NewThrift`, whose result is returned, also when the procedure is empty. No
builder is called on the two error paths. -/
theorem newSerializer_missing_procedure {S X : Type} (pkg : EncodingPkg S X)
    (opts : RequestOptions) (hhealth : opts.Health = false) :
    ((NewSerializer pkg opts).err = some SerializerError.errMissingProcedure ↔
      (detectEncoding opts ≠ Encoding.Thrift ∧ opts.Procedure = "")) ∧
    (∀ name, opts.Encoding = Encoding.Unknown name →
      (opts.Procedure = "" →
        (NewSerializer pkg opts).serializer = none ∧
        (NewSerializer pkg opts).err = some SerializerError.errMissingProcedure ∧
        (NewSerializer pkg opts).calls = []) ∧
      (opts.Procedure ≠ "" →
        (NewSerializer pkg opts).serializer = none ∧
        (NewSerializer pkg opts).err = some SerializerError.errUnrecognizedEncoding ∧
        (NewSerializer pkg opts).calls = [])) ∧
    (detectEncoding opts = Encoding.JSON → opts.Procedure ≠ "" →
      (NewSerializer pkg opts).serializer = some (pkg.NewJSON opts.Procedure) ∧
      (NewSerializer pkg opts).err = none) ∧
    (detectEncoding opts = Encoding.Raw → opts.Procedure ≠ "" →
      (NewSerializer pkg opts).serializer = some (pkg.NewRaw opts.Procedure) ∧
      (NewSerializer pkg opts).err = none) ∧
    (detectEncoding opts = Encoding.Thrift →
      (NewSerializer pkg opts).serializer =
        (pkg.NewThrift opts.ThriftFile opts.Procedure opts.ThriftMultiplexed).1 ∧
      (NewSerializer pkg opts).err =
        (pkg.NewThrift opts.ThriftFile opts.Procedure opts.ThriftMultiplexed).2.map
          SerializerError.collaborator ∧
      (NewSerializer pkg opts).calls =
        [BuilderCall.NewThrift opts.ThriftFile opts.Procedure opts.ThriftMultiplexed]) := by
  refine ⟨?_, ?_, ?_, ?_, ?_⟩
  · by_cases ht : detectEncoding opts = Encoding.Thrift
    · simp only [NewSerializer, hhealth, ht]
      cases (pkg.NewThrift opts.ThriftFile opts.Procedure opts.ThriftMultiplexed).2 <;> simp
    · by_cases hp : opts.Procedure = ""
      · simp [NewSerializer, hhealth, ht, hp]
      · simp only [NewSerializer, hhealth, ht, hp]
        cases hd : detectEncoding opts <;> simp
  · intro name hname
    have hd : detectEncoding opts = Encoding.Unknown name := by
      simp [detectEncoding, hname]
    constructor
    · intro hp
      simp [NewSerializer, hhealth, hd, hp]
    · intro hp
      simp [NewSerializer, hhealth, hd, hp]
  · intro hd hp
    simp [NewSerializer, hhealth, hd, hp]
  · intro hd hp
    simp [NewSerializer, hhealth, hd, hp]
  · intro hd
    simp [NewSerializer, hhealth, hd]

/-- C15: `getRequestInput` reads standard input when `file` or `inline` is `-`,
whatever the other argument; otherwise, with `file` non-empty, it reads that
file and returns its bytes, or no bytes and the read failure wrapped in an
error; otherwise, with `inline` non-empty, it returns the bytes of `inline` and
no error; otherwise it returns no bytes and no error. -/
theorem getRequestInput_precedence (env : Env) (inline file : String) :
    ((file = "-" ∨ inline = "-") →
      getRequestInput env inline file =
        { bytes := env.readStdin.1, err := env.readStdin.2, effects := [Effect.ReadStdin] }) ∧
    (¬ (file = "-" ∨ inline = "-") → file ≠ "" →
      (∀ e, (env.readFile file).2 = some e →
        getRequestInput env inline file =
          { bytes := none, err := some ("failed to open request file: " ++ e)
            effects := [Effect.ReadFile file] }) ∧
      ((env.readFile file).2 = none →
        getRequestInput env inline file =
          { bytes := (env.readFile file).1, err := none, effects := [Effect.ReadFile file] })) ∧
    (¬ (file = "-" ∨ inline = "-") → file = "" → inline ≠ "" →
      getRequestInput env inline file =
        { bytes := bytesOfString inline, err := none, effects := [] }) ∧
    (¬ (file = "-" ∨ inline = "-") → file = "" → inline = "" →
      getRequestInput env inline file = { bytes := none, err := none, effects := [] }) := by
  refine ⟨?_, ?_, ?_, ?_⟩
  · intro hdash
    simp [getRequestInput, hdash]
  · intro hdash hfile
    constructor
    · intro e he
      simp [getRequestInput, hdash, hfile, he]
    · intro he
      simp [getRequestInput, hdash, hfile, he]
  · intro hdash hfile hinline
    obtain ⟨_, hi⟩ := not_or.mp hdash
    simp [getRequestInput, hfile, hi, hinline]
  · intro hdash hfile hinline
    simp [getRequestInput, hfile, hinline]

end yab

/-! ## The request pipeline -/

namespace yab

open Go transport

/-- C16 (amended): `prepareRequest` never returns a request together with an
error. When the middleware returns an error, `prepareRequest` returns a nil
request and that error and leaves the heap as the middleware left it: the
override stage is not run. When the middleware returns a nil error and a
request, `prepareRequest` returns the request of the override stage applied to
it, and a nil error. -/
theorem prepareRequest_no_partial_request (apply : Middleware) (h : Heap) (req : Request)
    (headers : MapRef) (opts : Options) :
    (∀ e, (newRequestWithTransportMiddleware apply (newRequestWithMetadata h req opts.TOpts).1
          (newRequestWithMetadata h req opts.TOpts).2).err = some e →
      prepareRequest apply h req headers opts =
        some { heap := (newRequestWithTransportMiddleware apply
                 (newRequestWithMetadata h req opts.TOpts).1
                 (newRequestWithMetadata h req opts.TOpts).2).heap
               req := none
               err := some e }) ∧
    (∀ p, (newRequestWithTransportMiddleware apply (newRequestWithMetadata h req opts.TOpts).1
          (newRequestWithMetadata h req opts.TOpts).2).err = none →
      (newRequestWithTransportMiddleware apply (newRequestWithMetadata h req opts.TOpts).1
          (newRequestWithMetadata h req opts.TOpts).2).req = some p →
      prepareRequest apply h req headers opts =
        some { heap := (newRequestWithCLIOverrides (newRequestWithTransportMiddleware apply
                 (newRequestWithMetadata h req opts.TOpts).1
                 (newRequestWithMetadata h req opts.TOpts).2).heap p headers opts).1
               req := some (newRequestWithCLIOverrides (newRequestWithTransportMiddleware apply
                 (newRequestWithMetadata h req opts.TOpts).1
                 (newRequestWithMetadata h req opts.TOpts).2).heap p headers opts).2
               err := none }) ∧
    (∀ res, prepareRequest apply h req headers opts = some res →
      (res.req = none ∧ res.err ≠ none) ∨ (res.req ≠ none ∧ res.err = none)) := by
  refine ⟨?_, ?_, ?_⟩
  · intro e he
    simp only [prepareRequest, he]
  · intro p he hp
    simp only [prepareRequest, he, hp]
  · intro res hres
    simp only [prepareRequest] at hres
    split at hres
    · simp only [Option.some.injEq] at hres
      subst hres
      exact Or.inl ⟨rfl, by simp⟩
    · split at hres
      · simp at hres
      · simp only [Option.some.injEq] at hres
        subst hres
        exact Or.inr ⟨by simp, rfl⟩

/-- C16, as stated, fails for a middleware that returns a nil request and a nil
error: the middleware stage reports no error, and `prepareRequest` returns
nothing, the override stage dereferencing the nil request. -/
theorem prepareRequest_nil_request_panics :
    (newRequestWithTransportMiddleware nilMiddleware
        (newRequestWithMetadata testHeap testRequest noOptions.TOpts).1
        (newRequestWithMetadata testHeap testRequest noOptions.TOpts).2).err = none ∧
    (prepareRequest nilMiddleware testHeap testRequest none noOptions).isSome = false := by
  decide

/-- C17, evaluated on the request of `request_test.go` and a middleware that
writes the first byte of the body it is handed: the body of the base request
reads "hello world" before `prepareRequest`, the call succeeds, and the body of
the base request reads "jello world" after it. -/
theorem prepareRequest_modifies_base_body :
    testHeap.sliceBytes testRequest.Body =
      [104, 101, 108, 108, 111, 32, 119, 111, 114, 108, 100] ∧
    (prepareRequest bodyWritingMiddleware testHeap testRequest none noOptions).map
        (fun res => (res.err, res.heap.sliceBytes testRequest.Body)) =
      some (none, [106, 101, 108, 108, 111, 32, 119, 111, 114, 108, 100]) := by
  decide

theorem foldlM_mapAssign_nil (l : List (String × String)) (h : Heap) (hl : l ≠ []) :
    l.foldlM (fun hh kv => hh.mapAssign none kv.1 kv.2) h = none := by
  cases l with
  | nil => exact absurd rfl hl
  | cons kv t => rfl

/-- When the parser succeeds and leaves the map nil, `getHeaders` panics if the
override has a binding, and returns the nil map otherwise. -/
theorem getHeaders_nil_parse (env : Env) (h : Heap) (inline file : String) (override : MapRef)
    (herr : (getRequestInput env inline file).err = none)
    (hlen : (getRequestInput env inline file).bytes.len ≠ 0)
    (hy : env.yamlUnmarshal ((getRequestInput env inline file).bytes.getD []) = .ok none) :
    (h.mapEntries override ≠ [] → getHeaders env h inline file override = none) ∧
    (h.mapEntries override = [] →
      getHeaders env h inline file override =
        some { heap := h, headers := none, err := none
               effects := (getRequestInput env inline file).effects ++
                 [.Unmarshal ((getRequestInput env inline file).bytes.getD [])] }) := by
  constructor
  · intro hne
    simp only [getHeaders, herr, hlen, if_false, hy, foldlM_mapAssign_nil _ h hne]
  · intro hnil
    simp only [getHeaders, herr, hlen, if_false, hy, hnil]
    rfl

/-- C19, evaluated on the inline text `null`, which the parser accepts leaving
the map nil, and the override `{"a": "1"}`: input acquisition returns four bytes
and no error, and `getHeaders` returns nothing: the overlay loop assigns to an
entry of the nil map. -/
theorem getHeaders_nil_map_panics :
    (getRequestInput nullEnv "null" "").err = none ∧
    (getRequestInput nullEnv "null" "").bytes = some [110, 117, 108, 108] ∧
    overrideHeap.mapLookup (some 0) "a" = some "1" ∧
    (getHeaders nullEnv overrideHeap "null" "" (some 0)).isSome = false := by
  decide

/-- C11, evaluated on the comment-only inline text `# none`, which the parser
accepts as a mapping with no binding, leaving the map nil, and the override
`{"a": "z"}`: input acquisition returns six bytes and no error, the parser
reports success, and `getHeaders` returns neither the overlay `{"a": "z"}` nor
an error but nothing: the overlay loop assigns to an entry of the nil map. -/
theorem getHeaders_overlay_on_nil_mapping_panics :
    (getRequestInput nullEnv "# none" "").err = none ∧
    (getRequestInput nullEnv "# none" "").bytes = some [35, 32, 110, 111, 110, 101] ∧
    nullEnv.yamlUnmarshal [35, 32, 110, 111, 110, 101] = YamlResult.ok none ∧
    overrideHeapZ.ValidMap (some 0) ∧
    overrideHeapZ.mapLookup (some 0) "a" = some "z" ∧
    (getHeaders nullEnv overrideHeapZ "# none" "" (some 0)).isSome = false := by
  decide

end yab

namespace peerprovider

open Go

/-- C18: the events of one `Resolve` are `RLock`, `RUnlock` when the scheme is
unregistered and `RLock`, `RUnlock`, then the call of the provider when it is
bound: the read lock is taken once and released once on both paths, and
released before the provider is called. Whatever the state of the lock when
`Resolve` starts, it is in that state again when the provider is called and when
`Resolve` returns; `Resolve` never takes the write lock. -/
theorem resolve_releases_lock_before_call {W : Type} (isPrint : Char → Bool) (st : State W)
    (ctx : Context) (u : URL) :
    (st.registry.lookup u.Scheme = none →
      (Resolve isPrint st ctx u).2.trace = st.trace ++ [Event.RLock, Event.RUnlock]) ∧
    (∀ p, st.registry.lookup u.Scheme = some p →
      (Resolve isPrint st ctx u).2.trace =
        st.trace ++ ([Event.RLock, Event.RUnlock] ++ [Event.Call p ctx u])) ∧
    (∀ s0 : LockState,
      LockState.after s0 ([Event.RLock, Event.RUnlock] : List (Event W)) = s0 ∧
      ∀ p : PeerProvider W,
        LockState.after s0 ([Event.RLock, Event.RUnlock] ++ [Event.Call p ctx u]) = s0) := by
  refine ⟨?_, ?_, ?_⟩
  · intro hnone
    simp [Resolve, State.log, hnone]
  · intro p hp
    rw [Resolve_of_lookup isPrint st ctx u p hp]
    rfl
  · intro s0
    exact ⟨rfl, fun _ => rfl⟩

end peerprovider

namespace yab

open Go transport

theorem Heap.deepEqualMap_of_lookup (h : Heap) (x y : Addr)
    (hl : ∀ k, (h.mapOf (some x)).lookup k = (h.mapOf (some y)).lookup k) :
    h.deepEqualMap (some x) (some y) = true := by
  have hperm : (h.mapOf (some x)).entries.Perm (h.mapOf (some y)).entries := by
    apply List.lookup_ext (h.mapOf (some x)).nodupKeys (h.mapOf (some y)).nodupKeys
    intro k v
    have := hl k
    unfold AList.lookup at this
    rw [this]
  have hlen : h.mapLen (some x) = h.mapLen (some y) := hperm.length_eq
  have hall : (h.mapEntries (some x)).all
      (fun kv => h.mapLookup (some y) kv.1 == some kv.2) = true := by
    rw [List.all_eq_true]
    intro kv hkv
    unfold Heap.mapEntries at hkv
    rw [List.mem_map] at hkv
    obtain ⟨e, he, hekv⟩ := hkv
    subst hekv
    unfold Heap.mapLookup
    rw [← hl]
    have : e.2 ∈ (h.mapOf (some x)).lookup e.1 := AList.mem_lookup_iff.mpr he
    simpa using this
  simp [Heap.deepEqualMap, hlen, hall]

theorem lookup_overlay_copy_fixed (a o : MapObj)
    (hfix : ∀ k v, o.lookup k = some v → a.lookup k = some v) (k : String) :
    a.lookup k = (overlay (copyObj a) o).lookup k := by
  rw [lookup_overlay, lookup_copyObj]
  cases ho : o.lookup k with
  | none => rfl
  | some v => exact hfix k v ho

theorem Heap.deepEqualMap_second_overlay (h1 : Heap) (a : Addr) (src : MapRef) (i : Nat)
    (extra : List MapObj) (ha : a < h1.maps.length)
    (hex : extra[i]? = some (overlay (copyObj (h1.mapOf (some a))) (h1.mapOf src)))
    (hfix : ∀ k v, (h1.mapOf src).lookup k = some v →
      (h1.mapOf (some a)).lookup k = some v) :
    Heap.deepEqualMap { h1 with maps := h1.maps ++ extra } (some a)
      (some (h1.maps.length + i)) = true := by
  apply Heap.deepEqualMap_of_lookup
  intro k
  rw [Heap.mapOf_append_new h1 extra i, hex, Heap.mapOf_append_of_valid h1 (some a) ha]
  exact lookup_overlay_copy_fixed _ _ hfix k

end yab

namespace yab

open Go transport

theorem second_stage_deepEqual (h1 : Heap) (q : Request) (headers : MapRef) (opts : Options)
    (hq : q.Valid h1) (hh : h1.ValidMap headers) (ho : opts.Valid h1)
    (aH aB aT : Addr) (hH : q.Headers = some aH) (hB : q.Baggage = some aB)
    (hT : q.TransportHeaders = some aT)
    (fixH : ∀ k v, (h1.mapOf headers).lookup k = some v →
      (h1.mapOf (some aH)).lookup k = some v)
    (fixB : ∀ k v, (h1.mapOf opts.ROpts.Baggage).lookup k = some v →
      (h1.mapOf (some aB)).lookup k = some v)
    (fixT : ∀ k v, (h1.mapOf opts.TOpts.TransportHeaders).lookup k = some v →
      (h1.mapOf (some aT)).lookup k = some v)
    (hto : q.Timeout = if opts.ROpts.Timeout.Duration = 0 then Second
      else opts.ROpts.Timeout.Duration) :
    q.deepEqual (newRequestWithCLIOverrides h1 q headers opts).1
      (newRequestWithCLIOverrides h1 q headers opts).2 = true := by
  have hvH : aH < h1.maps.length := by have := hq.1; rw [hH] at this; exact this
  have hvB : aB < h1.maps.length := by have := hq.2.1; rw [hB] at this; exact this
  have hvT : aT < h1.maps.length := by have := hq.2.2.1; rw [hT] at this; exact this
  rw [newRequestWithCLIOverrides_eq h1 q headers opts hq hh ho]
  have dH := Heap.deepEqualMap_second_overlay h1 aH headers 0
    [overlay (copyObj (h1.mapOf q.Headers)) (h1.mapOf headers),
     overlay (copyObj (h1.mapOf q.Baggage)) (h1.mapOf opts.ROpts.Baggage),
     overlay (copyObj (h1.mapOf q.TransportHeaders)) (h1.mapOf opts.TOpts.TransportHeaders)]
    hvH (by rw [hH]; rfl) fixH
  have dB := Heap.deepEqualMap_second_overlay h1 aB opts.ROpts.Baggage 1
    [overlay (copyObj (h1.mapOf q.Headers)) (h1.mapOf headers),
     overlay (copyObj (h1.mapOf q.Baggage)) (h1.mapOf opts.ROpts.Baggage),
     overlay (copyObj (h1.mapOf q.TransportHeaders)) (h1.mapOf opts.TOpts.TransportHeaders)]
    hvB (by rw [hB]; rfl) fixB
  have dT := Heap.deepEqualMap_second_overlay h1 aT opts.TOpts.TransportHeaders 2
    [overlay (copyObj (h1.mapOf q.Headers)) (h1.mapOf headers),
     overlay (copyObj (h1.mapOf q.Baggage)) (h1.mapOf opts.ROpts.Baggage),
     overlay (copyObj (h1.mapOf q.TransportHeaders)) (h1.mapOf opts.TOpts.TransportHeaders)]
    hvT (by rw [hT]; rfl) fixT
  rw [← hH] at dH
  rw [← hB] at dB
  rw [← hT] at dT
  simp only [Request.deepEqual, Nat.add_zero] at dH ⊢
  rw [dH, dB, dT, Heap.deepEqualBytes_self, ← hto]
  simp

end yab

namespace yab

open Go transport

theorem lookup_overlay_of_some (m o : MapObj) (k v : String) (hk : o.lookup k = some v) :
    (overlay m o).lookup k = some v := by
  rw [lookup_overlay, hk]

/-- C20: the override stage is an exact overlay. In the request it returns, each
of `Headers`, `TransportHeaders` and `Baggage` binds a key to the value of the
override when the override binds it and else as the previous request binds it,
so its keys are those of the two maps; `Method`, `ShardKey`, `Body` and
`TargetService` are those of the previous request; every map object and every
byte array that existed before the stage is as it was, so the previous request
and the override maps are not modified; and the stage applied again to its own
result, with the same overrides, returns a request deeply equal to that
result. -/
theorem cli_overrides_exact_overlay (h : Heap) (p : Request) (headers : MapRef)
    (opts : Options) (hv : p.Valid h) (hh : h.ValidMap headers) (ho : opts.Valid h) :
    (∀ k, (newRequestWithCLIOverrides h p headers opts).1.mapLookup
        (newRequestWithCLIOverrides h p headers opts).2.Headers k =
      match h.mapLookup headers k with
      | some v => some v
      | none => h.mapLookup p.Headers k) ∧
    (∀ k, (newRequestWithCLIOverrides h p headers opts).1.mapLookup
        (newRequestWithCLIOverrides h p headers opts).2.TransportHeaders k =
      match h.mapLookup opts.TOpts.TransportHeaders k with
      | some v => some v
      | none => h.mapLookup p.TransportHeaders k) ∧
    (∀ k, (newRequestWithCLIOverrides h p headers opts).1.mapLookup
        (newRequestWithCLIOverrides h p headers opts).2.Baggage k =
      match h.mapLookup opts.ROpts.Baggage k with
      | some v => some v
      | none => h.mapLookup p.Baggage k) ∧
    (newRequestWithCLIOverrides h p headers opts).2.Method = p.Method ∧
    (newRequestWithCLIOverrides h p headers opts).2.ShardKey = p.ShardKey ∧
    (newRequestWithCLIOverrides h p headers opts).2.Body = p.Body ∧
    (newRequestWithCLIOverrides h p headers opts).2.TargetService = p.TargetService ∧
    (∀ m, h.ValidMap m → (newRequestWithCLIOverrides h p headers opts).1.mapOf m = h.mapOf m) ∧
    (newRequestWithCLIOverrides h p headers opts).1.bufs = h.bufs ∧
    (newRequestWithCLIOverrides h p headers opts).2.deepEqual
      (newRequestWithCLIOverrides (newRequestWithCLIOverrides h p headers opts).1
        (newRequestWithCLIOverrides h p headers opts).2 headers opts).1
      (newRequestWithCLIOverrides (newRequestWithCLIOverrides h p headers opts).1
        (newRequestWithCLIOverrides h p headers opts).2 headers opts).2 = true := by
  have e1 := newRequestWithCLIOverrides_eq h p headers opts hv hh ho
  have mH := Heap.mapOf_append_new h
    [overlay (copyObj (h.mapOf p.Headers)) (h.mapOf headers),
     overlay (copyObj (h.mapOf p.Baggage)) (h.mapOf opts.ROpts.Baggage),
     overlay (copyObj (h.mapOf p.TransportHeaders)) (h.mapOf opts.TOpts.TransportHeaders)] 0
  have mB := Heap.mapOf_append_new h
    [overlay (copyObj (h.mapOf p.Headers)) (h.mapOf headers),
     overlay (copyObj (h.mapOf p.Baggage)) (h.mapOf opts.ROpts.Baggage),
     overlay (copyObj (h.mapOf p.TransportHeaders)) (h.mapOf opts.TOpts.TransportHeaders)] 1
  have mT := Heap.mapOf_append_new h
    [overlay (copyObj (h.mapOf p.Headers)) (h.mapOf headers),
     overlay (copyObj (h.mapOf p.Baggage)) (h.mapOf opts.ROpts.Baggage),
     overlay (copyObj (h.mapOf p.TransportHeaders)) (h.mapOf opts.TOpts.TransportHeaders)] 2
  simp only [Nat.add_zero, List.getElem?_cons_zero, List.getElem?_cons_succ,
    Option.getD_some] at mH mB mT
  rw [e1]
  refine ⟨?_, ?_, ?_, rfl, rfl, rfl, rfl, ?_, rfl, ?_⟩
  · intro k
    simp only [Heap.mapLookup]
    rw [mH, lookup_overlay, lookup_copyObj]
  · intro k
    simp only [Heap.mapLookup]
    rw [mT, lookup_overlay, lookup_copyObj]
  · intro k
    simp only [Heap.mapLookup]
    rw [mB, lookup_overlay, lookup_copyObj]
  · intro m hm
    exact Heap.mapOf_append_of_valid h m hm _
  · apply second_stage_deepEqual _ _ headers opts ?_ (Heap.validMap_append h _ hh _)
      ⟨Heap.validMap_append h _ ho.1 _, Heap.validMap_append h _ ho.2 _⟩
      h.maps.length (h.maps.length + 1) (h.maps.length + 2) rfl rfl rfl ?_ ?_ ?_ rfl
    · refine ⟨?_, ?_, ?_, hv.2.2.2⟩
      · show h.maps.length < (h.maps ++ _).length
        simp
      · show h.maps.length + 1 < (h.maps ++ _).length
        simp
      · show h.maps.length + 2 < (h.maps ++ _).length
        simp
    · intro k v hk
      rw [Heap.mapOf_append_of_valid h _ hh] at hk
      rw [mH]
      exact lookup_overlay_of_some _ _ k v hk
    · intro k v hk
      rw [Heap.mapOf_append_of_valid h _ ho.1] at hk
      rw [mB]
      exact lookup_overlay_of_some _ _ k v hk
    · intro k v hk
      rw [Heap.mapOf_append_of_valid h _ ho.2] at hk
      rw [mT]
      exact lookup_overlay_of_some _ _ k v hk

end yab

/-! ## Instances on the examples of the spec -/

namespace yab

open Go transport

/-- The overlay on the example of the spec: `getHeaders("a: b", "", {"a":"z"})`,
the parser reading the text as `{"a":"b"}`, returns a map with `a` bound to
`z`. -/
theorem getHeaders_overlay_witness :
    overrideHeapZ.ValidMap (some 0) ∧
    (getRequestInput testEnv "a: b" "").err = none ∧
    (getRequestInput testEnv "a: b" "").bytes.len ≠ 0 ∧
    ∃ res, getHeaders testEnv overrideHeapZ "a: b" "" (some 0) = some res ∧ res.err = none ∧
      res.heap.mapLookup res.headers "a" = some "z" :=
  ⟨by decide, by decide, by decide,
    match (getHeaders_overlay testEnv overrideHeapZ "a: b" "" (some 0) (by decide) (by decide)
      (by decide)).1 ((∅ : MapObj).insert "a" "b") rfl with
    | ⟨res, hres, herr, _, hlook, _⟩ => ⟨res, hres, herr, (hlook "a").trans (by decide)⟩⟩

/-- C12 on the example of the spec: health check with the procedure `Foo` gives
`errHealthAndProcedure`. -/
theorem newSerializer_health_witness :
    healthWithProcedure.Health = true ∧
    (NewSerializer testPkg healthWithProcedure).serializer = none ∧
    (NewSerializer testPkg healthWithProcedure).err =
      some SerializerError.errHealthAndProcedure ∧
    (NewSerializer testPkg healthWithProcedure).calls = [] :=
  ⟨rfl, (newSerializer_health testPkg healthWithProcedure rfl).1 (by decide)⟩

/-- C14 on the example of the spec: JSON encoding with an empty procedure gives
`errMissingProcedure`. -/
theorem newSerializer_missing_procedure_witness :
    jsonWithoutProcedure.Health = false ∧
    (NewSerializer testPkg jsonWithoutProcedure).err =
      some SerializerError.errMissingProcedure :=
  ⟨rfl, (newSerializer_missing_procedure testPkg jsonWithoutProcedure rfl).1.mpr
    ⟨by decide, rfl⟩⟩

/-- C20 on the test request and the header override `{"beep": "cli"}`: the
override stage applied to its own result returns a request deeply equal to
it, and the header map of the previous request still reads `"boop"`. -/
theorem cli_overrides_exact_overlay_witness :
    testRequest.Valid cliHeap ∧ cliHeap.ValidMap (some 3) ∧ noOptions.Valid cliHeap ∧
    (newRequestWithCLIOverrides cliHeap testRequest (some 3) noOptions).2.deepEqual
      (newRequestWithCLIOverrides (newRequestWithCLIOverrides cliHeap testRequest (some 3)
          noOptions).1
        (newRequestWithCLIOverrides cliHeap testRequest (some 3) noOptions).2 (some 3)
          noOptions).1
      (newRequestWithCLIOverrides (newRequestWithCLIOverrides cliHeap testRequest (some 3)
          noOptions).1
        (newRequestWithCLIOverrides cliHeap testRequest (some 3) noOptions).2 (some 3)
          noOptions).2 = true ∧
    (newRequestWithCLIOverrides cliHeap testRequest (some 3) noOptions).1.mapOf
      testRequest.Headers = cliHeap.mapOf testRequest.Headers :=
  ⟨by decide, by decide, by decide,
    (cli_overrides_exact_overlay cliHeap testRequest (some 3) noOptions (by decide) (by decide)
      (by decide)).2.2.2.2.2.2.2.2.2,
    (cli_overrides_exact_overlay cliHeap testRequest (some 3) noOptions (by decide) (by decide)
      (by decide)).2.2.2.2.2.2.2.1 testRequest.Headers (by decide)⟩

end yab
